import Mathlib

/-!
Verification of the translation-workload orchestrator in
`src/translate_scenarios.py` (classes `GeminiClient` and `Translator`).

The Python program's string operations (`str.strip`, `str.replace`,
`str.split`, `in`, `str.find`, `str.rfind`) are embedded as executable
functions over `List Char`, and the orchestration logic
(`Translator._scan_workload`, `Translator.process`, `GeminiClient.send`)
as pure functions over lists of rows of cell strings.  The external
translation backend (a subprocess) and the Python `json.loads` library
routine are modelled as function parameters: the backend as
`String → Option String × Option String` (response text or failure
reason) and the JSON parser as `String → Option (List String)`
(`none` models a raised exception, `some xs` a parsed array whose
elements are already stringified).
-/

namespace TranslateScenarios

/-- Whitespace test matching the characters trimmed by Python `str.strip()`
on the inputs considered here. -/
def wsChar (c : Char) : Bool := c == ' ' || c == '\t' || c == '\n' || c == '\r'

/-- Character-level trim: drop leading and trailing whitespace. -/
def trimL (l : List Char) : List Char :=
  ((l.dropWhile wsChar).reverse.dropWhile wsChar).reverse

/-- Embedding of Python `str.strip()`. -/
def trimStr (s : String) : String := ⟨trimL s.data⟩

/-- Boolean list-prefix test, structural in the pattern. -/
def prefL : List Char → List Char → Bool
  | [], _ => true
  | _ :: _, [] => false
  | a :: as, b :: bs => a == b && prefL as bs

/-- Substring occurrence test: embedding of Python `pat in s`. -/
def containsSub : List Char → List Char → Bool
  | [], pat => pat.isEmpty
  | s@(_ :: tail), pat => prefL pat s || containsSub tail pat

/-- Embedding of Python `pat in s` on strings. -/
def containsStr (s pat : String) : Bool := containsSub s.data pat.data

/-- Fuel-indexed worker for `replaceL`; one fuel unit is spent per examined
character, so `s.length` fuel always suffices. -/
def repAux (pat rep : List Char) : Nat → List Char → List Char
  | _, [] => []
  | 0, s => s
  | fuel+1, c :: cs =>
      if prefL pat (c :: cs) && !pat.isEmpty then
        rep ++ repAux pat rep fuel (List.drop (pat.length - 1) cs)
      else c :: repAux pat rep fuel cs

/-- Embedding of Python `s.replace(pat, rep)`: replace all non-overlapping
occurrences, scanning left to right. -/
def replaceL (pat rep s : List Char) : List Char := repAux pat rep s.length s

/-- String version of `replaceL`. -/
def replaceStr (s pat rep : String) : String := ⟨replaceL pat.data rep.data s.data⟩

/-- Fuel-indexed worker for `splitL`. -/
def splitAux (pat : List Char) : Nat → List Char → List (List Char)
  | _, [] => [[]]
  | 0, s => [s]
  | fuel+1, c :: cs =>
      if prefL pat (c :: cs) && !pat.isEmpty then
        [] :: splitAux pat fuel (List.drop (pat.length - 1) cs)
      else match splitAux pat fuel cs with
        | [] => [[c]]
        | l :: ls => (c :: l) :: ls

/-- Embedding of Python `s.split(pat)` for a non-empty separator. -/
def splitL (pat s : List Char) : List (List Char) := splitAux pat s.length s

/-- String version of `splitL`. -/
def splitStr (s pat : String) : List String :=
  (splitL pat.data s.data).map (fun l => (⟨l⟩ : String))

/-- First index of a character: embedding of Python `s.find(c)` (as an
`Option` instead of `-1`). -/
def firstIdxOf (c : Char) : List Char → Option Nat
  | [] => none
  | x :: xs => if x == c then some 0 else (firstIdxOf c xs).map (· + 1)

/-- Last index of a character: embedding of Python `s.rfind(c)`. -/
def lastIdxOf (c : Char) : List Char → Option Nat
  | [] => none
  | x :: xs =>
      match lastIdxOf c xs with
      | some i => some (i + 1)
      | none => if x == c then some 0 else none

/-- First index of a string in a list of strings: embedding of Python
`list.index(x)` guarded by `x in list`. -/
def idxOfStr (x : String) : List String → Option Nat
  | [] => none
  | y :: ys => if y == x then some 0 else (idxOfStr x ys).map (· + 1)

/-! ## Workload scanning (`Translator._scan_workload`) -/

/-- Insertion into an ordered string-keyed dictionary, mirroring Python
`dict` assignment `d[k] = v`: an existing key keeps its position and gets
the new value, a new key is appended. -/
def dictInsert (k : String) (v : Nat) : List (String × Nat) → List (String × Nat)
  | [] => [(k, v)]
  | (k', v') :: rest => if k' == k then (k, v) :: rest else (k', v') :: dictInsert k v rest

/-- Dictionary lookup (first matching key). -/
def dictLookup (k : String) : List (String × Nat) → Option Nat
  | [] => none
  | (k', v) :: rest => if k' == k then some v else dictLookup k rest

/-- Filter test from `_scan_workload`: a trimmed header cell becomes a
target language when it is non-empty and, if a non-empty language filter
is supplied, is a member of it. -/
def keepCode (filt : List String) (code : String) : Bool :=
  code != "" && (filt.isEmpty || filt.contains code)

/-- The loop `for i in range(ru_index+1, len(header))` of
`_scan_workload`, building the `targets` dictionary. -/
def buildTargets (filt : List String) : Nat → List String → List (String × Nat) → List (String × Nat)
  | _, [], acc => acc
  | i, cell :: rest, acc =>
      buildTargets filt (i+1) rest
        (if keepCode filt (trimStr cell) then dictInsert (trimStr cell) i acc else acc)

/-- Target mapping derived from a header row: empty when the header has no
`ru` cell, otherwise the dictionary built from the cells strictly after
the first `ru`. -/
def scanTargets (header : List String) (filt : List String) : List (String × Nat) :=
  match idxOfStr "ru" header with
  | none => []
  | some ru => buildTargets filt (ru + 1) (header.drop (ru + 1)) []

/-- Embedding of `Translator._scan_workload` over pre-parsed tables:
returns the total step count and the per-file target mappings, skipping
files with no header, no `ru` column, or no surviving targets. -/
def scanWorkload (filt : List String) : List (List (List String)) → Nat × List (List (List String) × List (String × Nat))
  | [] => (0, [])
  | tbl :: rest =>
      let (n, meta) := scanWorkload filt rest
      match tbl.head? with
      | none => (n, meta)
      | some header =>
          let tgts := scanTargets header filt
          if tgts.isEmpty then (n, meta) else (n + tgts.length, (tbl, tgts) :: meta)

/-! ## Row selection for one task (`Translator.process`, resume filter) -/

/-- The test `len(row) > col_index and row[col_index].strip() != ""`. -/
def hasTranslation (row : List String) (colIndex : Nat) : Bool :=
  decide (colIndex < row.length) && (trimStr (row.getD colIndex "") != "")

/-- The resume-mode loop over data rows: collects, in row order, the
absolute indices (starting at `i`) of rows without a translation at
`colIndex`, paired with their source cells. -/
def resumeScan (ruIndex colIndex : Nat) : Nat → List (List String) → List Nat × List String
  | _, [] => ([], [])
  | i, row :: rest =>
      let (is, ss) := resumeScan ruIndex colIndex (i+1) rest
      if hasTranslation row colIndex then (is, ss)
      else (i :: is, row.getD ruIndex "" :: ss)

/-- Row-subset selection of `Translator.process`: resume mode filters data
rows by `hasTranslation`, overwrite mode takes all data rows; both return
the aligned source cells. -/
def computeIndices (skipExisting : Bool) (rows : List (List String)) (ruIndex colIndex : Nat) : List Nat × List String :=
  if skipExisting then resumeScan ruIndex colIndex 1 (rows.drop 1)
  else (List.range' 1 (rows.length - 1), (rows.drop 1).map (fun r => r.getD ruIndex ""))

/-! ## Glossary and prompt (`Translator.process`, glossary block) -/

/-- The glossary term lines `- <term> -> <translation>\n`, in the
glossary's own order. -/
def termLinesText : List (String × String) → String
  | [] => ""
  | (t, tr) :: rest => "- " ++ t ++ " -> " ++ tr ++ "\n" ++ termLinesText rest

/-- The `glossary_text` value built in `Translator.process`: empty when
the language has no glossary entry. -/
def glossaryText (langCode : String) : Option (List (String × String)) → String
  | none => ""
  | some g =>
      "\nGLOSSARY / TERMINOLOGY (Mandatory):\n" ++ termLinesText g ++
      "Please use these exact " ++ langCode ++ " translations for the terms listed above.\n"

/-- Lookup of a language's glossary entry in the loaded glossary mapping. -/
def lookupGlossary (lang : String) : List (String × List (String × String)) → Option (List (String × String))
  | [] => none
  | (k, v) :: rest => if k == lang then some v else lookupGlossary lang rest

/-- Prompt formatting of `Translator.process`: substitute the language
code, then either substitute the glossary placeholder (when present) or
substitute the text placeholder with glossary text, an `Input:` marker
and the newline-joined source lines. -/
def buildPrompt (template langCode gtext : String) (sourceSubset : List String) : String :=
  let textBlock := String.intercalate "\n" sourceSubset
  let p := replaceStr template "{target_lang}" langCode
  if containsStr p "{glossary}" then replaceStr p "{glossary}" gtext
  else replaceStr p "{text}" (gtext ++ "\nInput:\n" ++ textBlock)

/-! ## Response parsing (`Translator.process`, JSON-or-split) -/

/-- The bracket slice `response[response.find('['):response.rfind(']')+1]`
when both brackets occur. -/
def extractJson (response : String) : Option String :=
  match firstIdxOf '[' response.data, lastIdxOf ']' response.data with
  | some s, some e => some ⟨(response.data.drop s).take (e + 1 - s)⟩
  | _, _ => none

/-- The fallback `response.split('\\n')`: a split on the literal
two-character escape sequence backslash-n. -/
def fallbackSplit (response : String) : List String := splitStr response "\\n"

/-- Response parsing of `Translator.process`: try the bracket slice
through the (modelled) JSON parser, fall back to the escape-sequence
split when brackets are missing or parsing fails. -/
def parseResponse (jsonLoads : String → Option (List String)) (response : String) : List String :=
  match extractJson response with
  | some js =>
      match jsonLoads js with
      | some lines => lines
      | none => fallbackSplit response
  | none => fallbackSplit response

/-! ## Backend result shaping (`GeminiClient.send`) -/

/-- Embedding of the result shaping in `GeminiClient.send`, given the
subprocess exit code and both output streams: non-zero exit returns the
trimmed error message (stderr when non-empty, else stdout), zero exit
returns the trimmed stdout. -/
def geminiSendResult (returncode : Int) (stdout stderr : String) : Option String × Option String :=
  if returncode ≠ 0 then (none, some (trimStr (if stderr ≠ "" then stderr else stdout)))
  else (some (trimStr stdout), none)

/-! ## Writeback (`Translator.process`, fill data) -/

/-- Row padding `while len(target_row) <= col_index: target_row.append("")`. -/
def padTo (row : List String) (colIndex : Nat) : List String :=
  row ++ List.replicate (colIndex + 1 - row.length) ""

/-- Cell assignment `target_row[col_index] = value` after padding. -/
def setCell (row : List String) (colIndex : Nat) (v : String) : List String :=
  (padTo row colIndex).set colIndex v

/-- In-place update of the row at one index of the table. -/
def updateAt (f : List String → List String) : Nat → List (List String) → List (List String)
  | _, [] => []
  | 0, r :: rs => f r :: rs
  | n+1, r :: rs => r :: updateAt f n rs

/-- The fill loop of `Translator.process`: for each row index paired (in
order) with a translated line, pad that row to the target column and
assign the trimmed line; rows beyond the response length and lines beyond
the index list are ignored. -/
def fillData (rows : List (List String)) (colIndex : Nat) : List Nat → List String → List (List String)
  | [], _ => rows
  | _ :: _, [] => rows
  | i :: is, l :: ls => fillData (updateAt (fun r => setCell r colIndex (trimStr l)) i rows) colIndex is ls

/-! ## Per-task orchestration (`Translator.process`, main loop body) -/

/-- Observable state of one file's processing: the in-memory table, the
error counter, the step counter, the skip counter, the snapshots written
to the output file, the prompts sent to the backend, and the failure
reasons logged. -/
structure ProcState where
  rows : List (List String)
  errors : Nat
  step : Nat
  skipped : Nat
  saves : List (List (List String))
  sent : List String
  failLog : List (Option String)
  deriving DecidableEq

/-- Initial state for one file. -/
def initState (rows : List (List String)) : ProcState :=
  ⟨rows, 0, 0, 0, [], [], []⟩

/-- The prompt built for one task by `Translator.process`: glossary text
for the task language and the selected rows' source lines, formatted into
the template. -/
def taskPrompt (template : String) (fullGlossary : List (String × List (String × String)))
    (skipExisting : Bool) (ruIndex : Nat)
    (rows : List (List String)) (task : String × Nat) : String :=
  buildPrompt template task.1 (glossaryText task.1 (lookupGlossary task.1 fullGlossary))
    (computeIndices skipExisting rows ruIndex task.2).2

/-- One iteration of the per-language loop of `Translator.process`: resume
filtering (with skip), glossary and prompt construction, backend call,
response check, parse, fill and incremental save, or failure accounting. -/
def processLang (send : String → Option String × Option String)
    (jsonLoads : String → Option (List String))
    (template : String) (fullGlossary : List (String × List (String × String)))
    (skipExisting : Bool) (ruIndex : Nat)
    (st : ProcState) (task : String × Nat) : ProcState :=
  let indices := (computeIndices skipExisting st.rows ruIndex task.2).1
  if skipExisting && indices.isEmpty then
    { st with skipped := st.skipped + 1, step := st.step + 1 }
  else
    let prompt := taskPrompt template fullGlossary skipExisting ruIndex st.rows task
    let res := send prompt
    match res.1 with
    | some r =>
        if r = "" then
          { st with errors := st.errors + 1, step := st.step + 1,
                    sent := st.sent ++ [prompt], failLog := st.failLog ++ [res.2] }
        else
          let lines := parseResponse jsonLoads r
          let newRows := fillData st.rows task.2 indices lines
          { st with rows := newRows, step := st.step + 1,
                    sent := st.sent ++ [prompt], saves := st.saves ++ [newRows] }
    | none =>
        { st with errors := st.errors + 1, step := st.step + 1,
                  sent := st.sent ++ [prompt], failLog := st.failLog ++ [res.2] }

/-- Processing of one file's full task set, folding `processLang` over the
target languages in dictionary order; the source column index is resolved
once from the header. -/
def processFile (send : String → Option String × Option String)
    (jsonLoads : String → Option (List String))
    (template : String) (fullGlossary : List (String × List (String × String)))
    (skipExisting : Bool)
    (rows : List (List String)) (targets : List (String × Nat)) : ProcState :=
  let ruIndex := (idxOfStr "ru" (rows.headD [])).getD 0
  targets.foldl (processLang send jsonLoads template fullGlossary skipExisting ruIndex) (initState rows)

/-! ## Spec-side predicates used to state frame properties -/

/-- Cell-preservation relation between an old and a new row for a target
column `c`: every cell away from `c` either keeps its value or is new
empty-string padding. -/
def cellKeep (c : Nat) (old new : List String) : Prop :=
  ∀ q, q ≠ c → (new.get? q = old.get? q ∨ (old.get? q = none ∧ new.get? q = some ""))

/-- Length-preservation relation between an old and a new row for a target
column `c`: the row is unchanged in length or padded exactly up to `c`. -/
def lenKeep (c : Nat) (old new : List String) : Prop :=
  new.length = old.length ∨ new.length = max old.length (c + 1)

/-- Helper describing where a code ends up while the `targets` dictionary
is built: the last position at or after `i` whose trimmed cell passes the
filter and equals the code. -/
def lastQual (filt : List String) (code : String) : Nat → List String → Option Nat
  | _, [] => none
  | i, cell :: rest =>
      match lastQual filt code (i+1) rest with
      | some j => some j
      | none => if keepCode filt (trimStr cell) && (trimStr cell == code) then some i else none

/-- From the spec's words: the target mapping sends a code to the LAST
qualifying header position strictly after the source column (duplicate
codes resolve later-occurrence-wins), and to nothing when the code is
empty, filtered out, or absent. -/
def lastPosSpec (header : List String) (filt : List String) (ru : Nat) (code : String) : Option Nat :=
  if keepCode filt code then
    ((List.range' (ru + 1) (header.length - (ru + 1))).filter
      (fun i => trimStr (header.getD i "") == code)).getLast?
  else none

/-- From the spec's words: first-occurrence deduplication of the
qualifying codes, keeping header order (Python dict key order). -/
def dedupKeep (seen : List String) : List String → List String
  | [] => []
  | c :: cs => if c ∈ seen then dedupKeep seen cs else c :: dedupKeep (c :: seen) cs

/-! ## Lemmas about row selection -/

/-- A row needs translation exactly when it is too short for the target
column or its target cell is empty after trimming (the claim's wording). -/
theorem not_hasTranslation (row : List String) (c : Nat) :
    (!hasTranslation row c) = (decide (row.length ≤ c) || (trimStr (row.getD c "") == "")) := by
  simp only [hasTranslation, Bool.not_and]
  congr 1
  · rcases Nat.lt_or_ge c row.length with h | h
    · have h1 : ¬ row.length ≤ c := by omega
      simp [h, h1]
    · have h1 : ¬ c < row.length := by omega
      simp [h, h1]
  · simp [bne]

/-- Closed form of the resume-mode row scan: it filters the enumerated
data rows by the needs-translation test, and returns the kept positions
and the kept rows' source cells. -/
theorem resumeScan_enum (ru c : Nat) : ∀ (rest : List (List String)) (i : Nat),
    resumeScan ru c i rest
      = (((List.enumFrom i rest).filter (fun p => !hasTranslation p.2 c)).map Prod.fst,
         ((List.enumFrom i rest).filter (fun p => !hasTranslation p.2 c)).map
            (fun p => p.2.getD ru "")) := by
  intro rest
  induction rest with
  | nil => intro i; rfl
  | cons row t ih =>
    intro i
    simp only [resumeScan, ih (i+1), List.enumFrom, List.filter_cons]
    by_cases h : hasTranslation row c
    · simp [h]
    · simp [h]

/-- C2: in resume mode `rowIndices` is exactly the data-row positions
(rows 1..N, in row order) whose target cell is missing (row shorter than
the column index plus one) or empty after trimming; in overwrite mode it
is all data-row positions 1..N; in both modes `sourceLines` is aligned
one-to-one with `rowIndices`, taking each selected row's source-column
cell or the empty string when the row is too short. -/
theorem row_indices_selection (rows : List (List String)) (ruIndex colIndex : Nat) :
    (computeIndices true rows ruIndex colIndex).1
        = ((List.enumFrom 1 (rows.drop 1)).filter
            (fun p => decide (p.2.length ≤ colIndex)
                      || (trimStr (p.2.getD colIndex "") == ""))).map Prod.fst
    ∧ (computeIndices true rows ruIndex colIndex).2
        = ((List.enumFrom 1 (rows.drop 1)).filter
            (fun p => decide (p.2.length ≤ colIndex)
                      || (trimStr (p.2.getD colIndex "") == ""))).map (fun p => p.2.getD ruIndex "")
    ∧ (computeIndices false rows ruIndex colIndex).1 = List.range' 1 (rows.length - 1)
    ∧ (computeIndices false rows ruIndex colIndex).2
        = (List.enumFrom 1 (rows.drop 1)).map (fun p => p.2.getD ruIndex "") := by
  have hpred : (fun p : Nat × List String => !hasTranslation p.2 colIndex)
      = (fun p : Nat × List String => decide (p.2.length ≤ colIndex)
              || (trimStr (p.2.getD colIndex "") == "")) :=
    funext fun p => not_hasTranslation p.2 colIndex
  have htrue : computeIndices true rows ruIndex colIndex
      = resumeScan ruIndex colIndex 1 (rows.drop 1) := rfl
  have hfalse : computeIndices false rows ruIndex colIndex
      = (List.range' 1 (rows.length - 1), (rows.drop 1).map (fun r => r.getD ruIndex "")) := rfl
  refine ⟨?_, ?_, ?_, ?_⟩
  · rw [htrue, resumeScan_enum, ← hpred]
  · rw [htrue, resumeScan_enum, ← hpred]
  · rw [hfalse]
  · rw [hfalse]
    show (rows.drop 1).map (fun r => r.getD ruIndex "") = _
    rw [show (fun p : Nat × List String => p.2.getD ruIndex "")
          = ((fun r : List String => r.getD ruIndex "") ∘ Prod.snd) from rfl,
        ← List.map_map, List.enumFrom_map_snd]

/-! ## Lemmas about writeback -/

theorem getD_eq_get? (l : List (List String)) (j : Nat) : l.getD j [] = (l.get? j).getD [] := by
  simp [List.getD_eq_getD_get?]

theorem updateAt_get?_eq (f : List String → List String) :
    ∀ (rs : List (List String)) (i : Nat), (updateAt f i rs).get? i = (rs.get? i).map f := by
  intro rs
  induction rs with
  | nil => intro i; cases i <;> rfl
  | cons r t ih =>
    intro i
    cases i with
    | zero => rfl
    | succ n => exact ih n

theorem updateAt_get?_ne (f : List String → List String) :
    ∀ (rs : List (List String)) (i j : Nat), i ≠ j → (updateAt f i rs).get? j = rs.get? j := by
  intro rs
  induction rs with
  | nil => intro i j _; cases i <;> rfl
  | cons r t ih =>
    intro i j hij
    cases i with
    | zero =>
      cases j with
      | zero => exact absurd rfl hij
      | succ m => rfl
    | succ n =>
      cases j with
      | zero => rfl
      | succ m => exact ih n m (fun he => hij (by rw [he]))

theorem fillData_not_mem (colIndex : Nat) :
    ∀ (is : List Nat) (ls : List String) (rows : List (List String)) (j : Nat),
      j ∉ is → (fillData rows colIndex is ls).get? j = rows.get? j := by
  intro is
  induction is with
  | nil => intro ls rows j _; rfl
  | cons i t ih =>
    intro ls rows j hj
    cases ls with
    | nil => rfl
    | cons l ls' =>
      have h1 : fillData rows colIndex (i :: t) (l :: ls')
          = fillData (updateAt (fun r => setCell r colIndex (trimStr l)) i rows) colIndex t ls' := rfl
      rw [h1, ih ls' _ j (fun hm => hj (List.mem_cons_of_mem i hm)),
        updateAt_get?_ne _ _ i j (fun he => hj (he ▸ List.mem_cons_self i t))]

theorem fillData_get?_aligned (colIndex : Nat) :
    ∀ (is : List Nat) (ls : List String) (rows : List (List String)) (k j : Nat),
      is.Nodup → is.get? k = some j →
      (k < ls.length →
        (fillData rows colIndex is ls).get? j
          = (rows.get? j).map (fun r => setCell r colIndex (trimStr (ls.getD k ""))))
      ∧ (ls.length ≤ k → (fillData rows colIndex is ls).get? j = rows.get? j) := by
  intro is
  induction is with
  | nil => intro ls rows k j _ h; exact absurd h (by simp)
  | cons i t ih =>
    intro ls rows k j hnd h
    have hnotin : i ∉ t := (List.nodup_cons.mp hnd).1
    cases ls with
    | nil =>
      refine ⟨fun hk => absurd hk (by simp), fun _ => rfl⟩
    | cons l ls' =>
      have h1 : fillData rows colIndex (i :: t) (l :: ls')
          = fillData (updateAt (fun r => setCell r colIndex (trimStr l)) i rows) colIndex t ls' := rfl
      cases k with
      | zero =>
        have hij : i = j := by simpa using h
        subst hij
        refine ⟨fun _ => ?_, fun hk => absurd hk (by simp)⟩
        rw [h1, fillData_not_mem colIndex t ls' _ i hnotin, updateAt_get?_eq]
        rfl
      | succ k' =>
        have h' : t.get? k' = some j := h
        have hij : i ≠ j := fun he => hnotin (he ▸ List.get?_mem h')
        have hrec := ih ls' (updateAt (fun r => setCell r colIndex (trimStr l)) i rows) k' j
          (List.Nodup.of_cons hnd) h'
        refine ⟨fun hk => ?_, fun hk => ?_⟩
        · have hk' : k' < ls'.length := by simpa using Nat.lt_of_succ_lt_succ hk
          rw [h1, hrec.1 hk', updateAt_get?_ne _ _ i j hij]
          rfl
        · have hk' : ls'.length ≤ k' := by simpa using Nat.le_of_succ_le_succ hk
          rw [h1, hrec.2 hk', updateAt_get?_ne _ _ i j hij]

theorem fillData_take (colIndex : Nat) :
    ∀ (is : List Nat) (ls : List String) (rows : List (List String)),
      fillData rows colIndex is ls = fillData rows colIndex is (ls.take is.length) := by
  intro is
  induction is with
  | nil => intro ls rows; rfl
  | cons i t ih =>
    intro ls rows
    cases ls with
    | nil => rfl
    | cons l ls' => exact ih ls' _

/-- C1: writeback assigns translated lines by position.  For the `k`-th
selected row index `j`: when `k` is within the parsed translated lines,
row `j` becomes its old value padded to the target column and assigned
the trimmed `k`-th line; when `k` is at or beyond the number of lines,
row `j` is unchanged.  Translated lines beyond the index list are
discarded (`fillData` only consumes the first `is.length` lines). -/
theorem fill_data_alignment (rows : List (List String)) (colIndex : Nat)
    (is : List Nat) (ls : List String) (hnd : is.Nodup) :
    (∀ k j, is.get? k = some j →
      (k < ls.length →
        (fillData rows colIndex is ls).get? j
          = (rows.get? j).map (fun r => setCell r colIndex (trimStr (ls.getD k ""))))
      ∧ (ls.length ≤ k → (fillData rows colIndex is ls).get? j = rows.get? j))
    ∧ fillData rows colIndex is ls = fillData rows colIndex is (ls.take is.length) :=
  ⟨fun k j h => fillData_get?_aligned colIndex is ls rows k j hnd h,
   fillData_take colIndex is ls rows⟩

/-- Witness for C1 at a concrete input: the first selected row receives
the trimmed first line, the second selected row (beyond the single
response line) is unchanged. -/
theorem fill_data_alignment_witness :
    (fillData [["h"], ["a"], ["b"]] 1 [1, 2] ["x "]).get? 1 = some ["a", "x"]
    ∧ (fillData [["h"], ["a"], ["b"]] 1 [1, 2] ["x "]).get? 2 = some ["b"] := by
  have h := fill_data_alignment [["h"], ["a"], ["b"]] 1 [1, 2] ["x "] (by decide)
  constructor
  · rw [(h.1 0 1 (by decide)).1 (by decide)]
    rfl
  · rw [(h.1 1 2 (by decide)).2 (by decide)]
    rfl

theorem setCell_get?_ne (r : List String) (c : Nat) (v : String) (q : Nat) (hq : q ≠ c) :
    (setCell r c v).get? q = r.get? q
    ∨ (r.get? q = none ∧ (setCell r c v).get? q = some "") := by
  have hset : (setCell r c v).get? q = (padTo r c).get? q :=
    List.get?_set_ne v (padTo r c) (Ne.symm hq)
  rcases Nat.lt_or_ge q r.length with hlt | hge
  · left
    rw [hset]
    exact List.get?_append hlt
  · have hnone : r.get? q = none := List.get?_eq_none.mpr hge
    have happ : (padTo r c).get? q
        = (List.replicate (c + 1 - r.length) "").get? (q - r.length) :=
      List.get?_append_right hge
    rcases Nat.lt_or_ge (q - r.length) (c + 1 - r.length) with h2 | h2
    · right
      refine ⟨hnone, ?_⟩
      rw [hset, happ, List.get?_eq_getElem?, List.getElem?_replicate, if_pos h2]
    · left
      rw [hset, happ, hnone, List.get?_eq_getElem?, List.getElem?_replicate, if_neg (by omega)]

theorem setCell_length (r : List String) (c : Nat) (v : String) :
    (setCell r c v).length = max r.length (c + 1) := by
  simp only [setCell, padTo, List.length_set, List.length_append, List.length_replicate]
  omega

theorem cellKeep_refl (c : Nat) (r : List String) : cellKeep c r r :=
  fun _ _ => Or.inl rfl

theorem lenKeep_refl (c : Nat) (r : List String) : lenKeep c r r := Or.inl rfl

theorem cellKeep_trans (c : Nat) (a b d : List String)
    (h1 : cellKeep c a b) (h2 : cellKeep c b d) : cellKeep c a d := by
  intro q hq
  rcases h2 q hq with he | ⟨hn, hs⟩
  · rcases h1 q hq with he1 | ⟨hn1, hs1⟩
    · exact Or.inl (he.trans he1)
    · exact Or.inr ⟨hn1, he.trans hs1⟩
  · rcases h1 q hq with he1 | ⟨hn1, hs1⟩
    · exact Or.inr ⟨he1 ▸ hn, hs⟩
    · exact Or.inr ⟨hn1, hs⟩

theorem lenKeep_trans (c : Nat) (a b d : List String)
    (h1 : lenKeep c a b) (h2 : lenKeep c b d) : lenKeep c a d := by
  rcases h1 with h1 | h1 <;> rcases h2 with h2 | h2 <;> unfold lenKeep <;> omega

theorem cellKeep_setCell (c : Nat) (r : List String) (v : String) :
    cellKeep c r (setCell r c v) :=
  fun q hq => setCell_get?_ne r c v q hq

theorem lenKeep_setCell (c : Nat) (r : List String) (v : String) :
    lenKeep c r (setCell r c v) := Or.inr (setCell_length r c v)

theorem updateAt_frame (c : Nat) (v : String) (i : Nat) (rows : List (List String)) (j : Nat) :
    cellKeep c (rows.getD j []) ((updateAt (fun r => setCell r c v) i rows).getD j [])
    ∧ lenKeep c (rows.getD j []) ((updateAt (fun r => setCell r c v) i rows).getD j []) := by
  rcases Nat.decEq i j with hij | hij
  · rw [getD_eq_get?, getD_eq_get?, updateAt_get?_ne _ _ _ _ hij]
    exact ⟨cellKeep_refl c _, lenKeep_refl c _⟩
  · subst hij
    rw [getD_eq_get?, getD_eq_get?, updateAt_get?_eq]
    cases hr : rows.get? i with
    | none => exact ⟨cellKeep_refl c _, lenKeep_refl c _⟩
    | some r => exact ⟨cellKeep_setCell c r v, lenKeep_setCell c r v⟩

theorem fillData_frame (colIndex : Nat) :
    ∀ (is : List Nat) (ls : List String) (rows : List (List String)) (j : Nat),
      cellKeep colIndex (rows.getD j []) ((fillData rows colIndex is ls).getD j [])
      ∧ lenKeep colIndex (rows.getD j []) ((fillData rows colIndex is ls).getD j []) := by
  intro is
  induction is with
  | nil => intro ls rows j; exact ⟨cellKeep_refl _ _, lenKeep_refl _ _⟩
  | cons i t ih =>
    intro ls rows j
    cases ls with
    | nil => exact ⟨cellKeep_refl _ _, lenKeep_refl _ _⟩
    | cons l ls' =>
      have h1 : fillData rows colIndex (i :: t) (l :: ls')
          = fillData (updateAt (fun r => setCell r colIndex (trimStr l)) i rows) colIndex t ls' := rfl
      rw [h1]
      have hstep := updateAt_frame colIndex (trimStr l) i rows j
      have hrec := ih ls' (updateAt (fun r => setCell r colIndex (trimStr l)) i rows) j
      exact ⟨cellKeep_trans _ _ _ _ hstep.1 hrec.1, lenKeep_trans _ _ _ _ hstep.2 hrec.2⟩

/-- C9: writeback of one task never touches any other column.  Rows whose
index is not selected are unchanged; in every row, every cell at a column
other than the target either keeps its previous value or is new
empty-string padding; row lengths are unchanged or padded exactly up to
the target column. -/
theorem writeback_frame (rows : List (List String)) (colIndex : Nat)
    (is : List Nat) (ls : List String) :
    (∀ j, j ∉ is → (fillData rows colIndex is ls).get? j = rows.get? j)
    ∧ (∀ j q, q ≠ colIndex →
        (((fillData rows colIndex is ls).getD j []).get? q = (rows.getD j []).get? q
         ∨ ((rows.getD j []).get? q = none
            ∧ ((fillData rows colIndex is ls).getD j []).get? q = some "")))
    ∧ (∀ j, ((fillData rows colIndex is ls).getD j []).length = (rows.getD j []).length
        ∨ ((fillData rows colIndex is ls).getD j []).length
            = max (rows.getD j []).length (colIndex + 1)) :=
  ⟨fun j hj => fillData_not_mem colIndex is ls rows j hj,
   fun j q hq => (fillData_frame colIndex is ls rows j).1 q hq,
   fun j => (fillData_frame colIndex is ls rows j).2⟩

/-- Witness for C9 at a concrete input: an unselected row is unchanged and
a non-target cell of a written row keeps its value. -/
theorem writeback_frame_witness :
    (fillData [["h"], ["a"], ["b"]] 1 [1] ["x"]).get? 2 = some ["b"]
    ∧ (((fillData [["h"], ["a"], ["b"]] 1 [1] ["x"]).getD 1 []).get? 0 = (([["h"], ["a"], ["b"]] : List (List String)).getD 1 []).get? 0
       ∨ ((([["h"], ["a"], ["b"]] : List (List String)).getD 1 []).get? 0 = none
          ∧ ((fillData [["h"], ["a"], ["b"]] 1 [1] ["x"]).getD 1 []).get? 0 = some "")) := by
  have h := writeback_frame [["h"], ["a"], ["b"]] 1 [1] ["x"]
  constructor
  · rw [h.1 2 (by decide)]
    rfl
  · exact h.2.1 1 0 (by decide)

/-! ## Lemmas about the per-task loop -/

/-- A falsy backend response (failure reason, or an empty response text)
makes `processLang` record one more error, log the failure reason, and
leave the table and the saved outputs unchanged. -/
theorem processLang_failure (send : String → Option String × Option String)
    (jsonLoads : String → Option (List String)) (template : String)
    (gloss : List (String × List (String × String))) (skip : Bool) (ru : Nat)
    (st : ProcState) (task : String × Nat)
    (hskip : (skip && (computeIndices skip st.rows ru task.2).1.isEmpty) = false)
    (hfail : (send (taskPrompt template gloss skip ru st.rows task)).1 = none
             ∨ (send (taskPrompt template gloss skip ru st.rows task)).1 = some "") :
    processLang send jsonLoads template gloss skip ru st task
      = { st with errors := st.errors + 1, step := st.step + 1,
                  sent := st.sent ++ [taskPrompt template gloss skip ru st.rows task],
                  failLog := st.failLog
                      ++ [(send (taskPrompt template gloss skip ru st.rows task)).2] } := by
  rcases hsend : send (taskPrompt template gloss skip ru st.rows task) with ⟨resp, err⟩
  rw [hsend] at hfail
  simp only [processLang, hskip, Bool.false_eq_true, if_false, hsend]
  rcases hfail with h | h
  · simp only at h
    simp [h]
  · simp only at h
    simp [h]

/-- With resume on and no remaining rows, `processLang` only counts the
task as skipped. -/
theorem processLang_skip (send : String → Option String × Option String)
    (jsonLoads : String → Option (List String)) (template : String)
    (gloss : List (String × List (String × String))) (ru : Nat)
    (st : ProcState) (task : String × Nat)
    (h : (computeIndices true st.rows ru task.2).1 = []) :
    processLang send jsonLoads template gloss true ru st task
      = { st with skipped := st.skipped + 1, step := st.step + 1 } := by
  simp [processLang, h]

/-- When every data row already has a translation at the target column,
the resume scan selects nothing. -/
theorem resumeScan_all (ru c : Nat) : ∀ (rest : List (List String)) (i : Nat),
    (∀ row ∈ rest, hasTranslation row c = true) → resumeScan ru c i rest = ([], []) := by
  intro rest
  induction rest with
  | nil => intro i _; rfl
  | cons row t ih =>
    intro i h
    have hhead : hasTranslation row c = true := h row (List.mem_cons_self row t)
    simp [resumeScan, ih (i+1) (fun r hr => h r (List.mem_cons_of_mem row hr)), hhead]

/-- Folding the per-language loop over tasks whose rows are all already
translated only accumulates skip and step counts. -/
theorem processLang_fold_skip (send : String → Option String × Option String)
    (jsonLoads : String → Option (List String)) (template : String)
    (gloss : List (String × List (String × String))) (ru : Nat) :
    ∀ (tasks : List (String × Nat)) (st : ProcState),
      (∀ lc ∈ tasks, ∀ row ∈ st.rows.drop 1, hasTranslation row lc.2 = true) →
      tasks.foldl (processLang send jsonLoads template gloss true ru) st
        = { st with skipped := st.skipped + tasks.length, step := st.step + tasks.length } := by
  intro tasks
  induction tasks with
  | nil => intro st _; simp
  | cons lc t ih =>
    intro st h
    have hempty : (computeIndices true st.rows ru lc.2).1 = [] := by
      show (resumeScan ru lc.2 1 (st.rows.drop 1)).1 = []
      rw [resumeScan_all ru lc.2 (st.rows.drop 1) 1 (h lc (List.mem_cons_self lc t))]
    rw [List.foldl_cons, processLang_skip send jsonLoads template gloss ru st lc hempty]
    rw [ih { st with skipped := st.skipped + 1, step := st.step + 1 }
      (fun lc' hlc' row hrow => h lc' (List.mem_cons_of_mem lc hlc') row hrow)]
    obtain ⟨r0, e0, s0, k0, v0, n0, f0⟩ := st
    simp only [ProcState.mk.injEq, List.length_cons]
    exact ⟨trivial, trivial, by omega, by omega, trivial, trivial, trivial⟩

/-- The total step count of `_scan_workload` is the sum of the per-file
target counts. -/
theorem scanWorkload_total (filt : List String) : ∀ (files : List (List (List String))),
    (scanWorkload filt files).1 = ((scanWorkload filt files).2.map (fun p => p.2.length)).sum := by
  intro files
  induction files with
  | nil => rfl
  | cons tbl rest ih =>
    rcases hsw : scanWorkload filt rest with ⟨n, meta⟩
    rw [hsw] at ih
    simp only [scanWorkload, hsw]
    cases htb : tbl.head? with
    | none => simpa using ih
    | some header =>
      by_cases he : (scanTargets header filt).isEmpty
      · simp only [he, if_true]
        simpa using ih
      · simp only [he, Bool.false_eq_true, if_false, List.map_cons, List.sum_cons]
        simp only at ih
        omega

/-- C6 counterexample: an input whose every target cell is populated still
reports one task per (file, language) pair: the total from
`_scan_workload` is computed from headers only, so it is 1, not 0, for a
one-file one-language fully-translated input. -/
theorem resume_total_counterexample :
    hasTranslation ["a", "b"] 1 = true
    ∧ (scanWorkload [] [[["ru", "en"], ["a", "b"]]]).1 = 1
    ∧ ¬ (scanWorkload [] [[["ru", "en"], ["a", "b"]]]).1 = 0 := by decide

/-- C6 amended: the reported task total equals the number of header-derived
(file, language) tasks regardless of cell contents, and when every target
cell of every discovered task is already non-empty, processing with
resume on skips every task: each file ends with its table unchanged, no
errors, no prompts sent, no saves, and a skip count equal to its task
count. -/
theorem resume_skip_behavior (files : List (List (List String))) (filt : List String)
    (send : String → Option String × Option String)
    (jsonLoads : String → Option (List String)) (template : String)
    (gloss : List (String × List (String × String)))
    (hfull : ∀ p ∈ (scanWorkload filt files).2, ∀ lc ∈ p.2, ∀ row ∈ p.1.drop 1,
        hasTranslation row lc.2 = true) :
    (scanWorkload filt files).1 = ((scanWorkload filt files).2.map (fun p => p.2.length)).sum
    ∧ ∀ p ∈ (scanWorkload filt files).2,
        processFile send jsonLoads template gloss true p.1 p.2
          = { initState p.1 with skipped := p.2.length, step := p.2.length } := by
  refine ⟨scanWorkload_total filt files, ?_⟩
  intro p hp
  show p.2.foldl (processLang send jsonLoads template gloss true _) (initState p.1) = _
  rw [processLang_fold_skip send jsonLoads template gloss _ p.2 (initState p.1)
    (fun lc hlc row hrow => hfull p hp lc hlc row hrow)]
  simp [initState]

/-- Witness for the amended C6 theorem at a concrete fully-translated
input: the single task is skipped, nothing is sent and nothing changes. -/
theorem resume_skip_behavior_witness :
    processFile (fun _ => (none, some "e")) (fun _ => none) "t" [] true
        [["ru", "en"], ["a", "b"]] [("en", 1)]
      = { initState [["ru", "en"], ["a", "b"]] with skipped := 1, step := 1 } := by
  have h := resume_skip_behavior [[["ru", "en"], ["a", "b"]]] [] (fun _ => (none, some "e"))
    (fun _ => none) "t" [] (by decide)
  exact h.2 ([["ru", "en"], ["a", "b"]], [("en", 1)]) (by decide)

/-- C3: a backend failure increments the error counter by one, logs the
reason, sends nothing else and changes no cell, and the run goes on.  In
the spec's concrete scenario (a 3-data-row file with target languages
`en` and `jp`, backend failing only for `jp`) the task total is 2, the
`en` column is fully translated, the `jp` column is untouched, exactly
one error is counted, and the saved output is the `en`-translated table.
A second concrete run whose first task fails shows the run continuing to
the next task. -/
theorem backend_failure_isolated :
    (∀ (send : String → Option String × Option String)
        (jsonLoads : String → Option (List String))
        (template : String) (gloss : List (String × List (String × String)))
        (skip : Bool) (ru : Nat) (st : ProcState) (task : String × Nat),
      (skip && (computeIndices skip st.rows ru task.2).1.isEmpty) = false →
      (send (taskPrompt template gloss skip ru st.rows task)).1 = none →
      processLang send jsonLoads template gloss skip ru st task
        = { st with errors := st.errors + 1, step := st.step + 1,
                    sent := st.sent ++ [taskPrompt template gloss skip ru st.rows task],
                    failLog := st.failLog
                        ++ [(send (taskPrompt template gloss skip ru st.rows task)).2] })
    ∧ (scanWorkload [] [[["ru", "en", "jp"], ["a"], ["b"], ["c"]]]).1 = 2
    ∧ (scanWorkload [] [[["ru", "en", "jp"], ["a"], ["b"], ["c"]]]).2
        = [([["ru", "en", "jp"], ["a"], ["b"], ["c"]], [("en", 1), ("jp", 2)])]
    ∧ (processFile
          (fun p => if p = "Translate to en.\n\nInput:\na\nb\nc" then (some "x\\ny\\nz", none)
                    else (none, some "backend unavailable"))
          (fun _ => none) "Translate to {target_lang}.\n{text}" [] false
          [["ru", "en", "jp"], ["a"], ["b"], ["c"]] [("en", 1), ("jp", 2)]).rows
        = [["ru", "en", "jp"], ["a", "x"], ["b", "y"], ["c", "z"]]
    ∧ (processFile
          (fun p => if p = "Translate to en.\n\nInput:\na\nb\nc" then (some "x\\ny\\nz", none)
                    else (none, some "backend unavailable"))
          (fun _ => none) "Translate to {target_lang}.\n{text}" [] false
          [["ru", "en", "jp"], ["a"], ["b"], ["c"]] [("en", 1), ("jp", 2)]).errors = 1
    ∧ (processFile
          (fun p => if p = "Translate to en.\n\nInput:\na\nb\nc" then (some "x\\ny\\nz", none)
                    else (none, some "backend unavailable"))
          (fun _ => none) "Translate to {target_lang}.\n{text}" [] false
          [["ru", "en", "jp"], ["a"], ["b"], ["c"]] [("en", 1), ("jp", 2)]).saves
        = [[["ru", "en", "jp"], ["a", "x"], ["b", "y"], ["c", "z"]]]
    ∧ (processFile
          (fun p => if p = "Translate to en.\n\nInput:\na\nb\nc" then (some "x\\ny\\nz", none)
                    else (none, some "backend unavailable"))
          (fun _ => none) "Translate to {target_lang}.\n{text}" [] false
          [["ru", "en", "jp"], ["a"], ["b"], ["c"]] [("en", 1), ("jp", 2)]).failLog
        = [some "backend unavailable"]
    ∧ (processFile
          (fun p => if containsStr p "jp" then (some "z", none) else (none, some "down"))
          (fun _ => none) "Translate to {target_lang}.\n{text}" [] false
          [["ru", "en", "jp"], ["a"]] [("en", 1), ("jp", 2)]).rows
        = [["ru", "en", "jp"], ["a", "", "z"]]
    ∧ (processFile
          (fun p => if containsStr p "jp" then (some "z", none) else (none, some "down"))
          (fun _ => none) "Translate to {target_lang}.\n{text}" [] false
          [["ru", "en", "jp"], ["a"]] [("en", 1), ("jp", 2)]).errors = 1 := by
  refine ⟨?_, by decide, by decide, by decide, by decide, by decide, by decide, by decide, by decide⟩
  intro send jsonLoads template gloss skip ru st task h1 h2
  exact processLang_failure send jsonLoads template gloss skip ru st task h1 (Or.inl h2)

/-- Witness for C3's universally quantified part at a concrete input. -/
theorem backend_failure_isolated_witness :
    processLang (fun _ => (none, some "boom")) (fun _ => none) "{text}" [] false 0
        (initState [["ru", "en"], ["a"]]) ("en", 1)
      = { initState [["ru", "en"], ["a"]] with
              errors := 1, step := 1, sent := ["\nInput:\na"], failLog := [some "boom"] } := by
  rw [backend_failure_isolated.1 (fun _ => (none, some "boom")) (fun _ => none) "{text}" [] false 0
    (initState [["ru", "en"], ["a"]]) ("en", 1) (by decide) (by decide)]
  decide

/-- C10: a backend call that exits 0 with empty (or whitespace-only)
stdout yields the response text `""`, which the orchestrator treats as a
task failure: the success branch is not taken, the error counter is
incremented with a null failure reason, no cell is assigned and no output
snapshot is written. -/
theorem empty_stdout_failure (stdout stderr : String)
    (jsonLoads : String → Option (List String)) (template : String)
    (gloss : List (String × List (String × String))) (ru : Nat)
    (st : ProcState) (task : String × Nat)
    (hempty : trimStr stdout = "") :
    geminiSendResult 0 stdout stderr = (some "", none)
    ∧ processLang (fun _ => geminiSendResult 0 stdout stderr) jsonLoads template gloss false ru st task
        = { st with errors := st.errors + 1, step := st.step + 1,
                    sent := st.sent ++ [taskPrompt template gloss false ru st.rows task],
                    failLog := st.failLog ++ [none] } := by
  have h1 : geminiSendResult 0 stdout stderr = (some "", none) := by
    simp [geminiSendResult, hempty]
  refine ⟨h1, ?_⟩
  have h2 := processLang_failure (fun _ => geminiSendResult 0 stdout stderr) jsonLoads template
    gloss false ru st task rfl (Or.inr (by simp [h1]))
  rw [h2]
  simp [h1]

/-- Witness for C10 at a concrete whitespace-only stdout. -/
theorem empty_stdout_failure_witness :
    geminiSendResult 0 " \n" "e" = (some "", none)
    ∧ processLang (fun _ => geminiSendResult 0 " \n" "e") (fun _ => none) "T {target_lang} {text}"
        [] false 0 (initState [["ru", "en"], ["s"]]) ("en", 1)
      = { initState [["ru", "en"], ["s"]] with
              errors := 1, step := 1, sent := ["T en \nInput:\ns"], failLog := [none] } := by
  have h := empty_stdout_failure " \n" "e" (fun _ => none) "T {target_lang} {text}" [] 0
    (initState [["ru", "en"], ["s"]]) ("en", 1) (by decide)
  refine ⟨h.1, ?_⟩
  rw [h.2]
  decide

/-! ## Lemmas about the string primitives -/

theorem strEta (s : String) : (⟨s.data⟩ : String) = s := by
  cases s
  rfl

theorem strData_append (x y : String) : (x ++ y).data = x.data ++ y.data := by
  cases x
  cases y
  rfl

theorem prefL_append (p l : List Char) : prefL p (p ++ l) = true := by
  induction p with
  | nil => rfl
  | cons a as ih => simp [prefL, ih]

theorem prefL_head_ne (h c : Char) (pt l : List Char) (hne : c ≠ h) :
    prefL (h :: pt) (c :: l) = false := by
  have hb : (h == c) = false := beq_eq_false_iff_ne.mpr (Ne.symm hne)
  simp [prefL, hb]

theorem prefL_take_false : ∀ (x pat rest : List Char),
    prefL (pat.take x.length) x = false → prefL pat (x ++ rest) = false := by
  intro x
  induction x with
  | nil =>
    intro pat rest h
    exact absurd h (by simp [prefL])
  | cons b xs ih =>
    intro pat rest h
    cases pat with
    | nil => exact absurd h (by simp [prefL])
    | cons a ps =>
      rw [List.length_cons, List.take_succ_cons] at h
      cases hab : (a == b) with
      | false => simp [prefL, hab]
      | true =>
        have h2 : prefL (ps.take xs.length) xs = false := by
          simpa [prefL, hab] using h
        simp [prefL, hab, ih ps rest h2]

theorem containsSub_head_not_mem (h : Char) (pt : List Char) :
    ∀ (s : List Char), h ∉ s → containsSub s (h :: pt) = false := by
  intro s
  induction s with
  | nil => intro _; rfl
  | cons a tl ih =>
    intro hm
    have ha : a ≠ h := fun he => hm (he ▸ List.mem_cons_self a tl)
    simp [containsSub, prefL_head_ne h a pt tl ha, ih (fun hx => hm (List.mem_cons_of_mem a hx))]

theorem containsSub_append_skip (h : Char) (pt : List Char) :
    ∀ (x v : List Char), h ∉ x → containsSub (x ++ v) (h :: pt) = containsSub v (h :: pt) := by
  intro x
  induction x with
  | nil => intro v _; rfl
  | cons a xs ih =>
    intro v hm
    have ha : a ≠ h := fun he => hm (he ▸ List.mem_cons_self a xs)
    simp [containsSub, prefL_head_ne h a pt _ ha, ih v (fun hx => hm (List.mem_cons_of_mem a hx))]

theorem containsSub_chunk_false (pat : List Char) : ∀ (x rest : List Char),
    (∀ k, k < x.length → prefL (pat.take (x.length - k)) (x.drop k) = false) →
    containsSub rest pat = false → containsSub (x ++ rest) pat = false := by
  intro x
  induction x with
  | nil => intro rest _ h; exact h
  | cons b xs ih =>
    intro rest hk hrest
    have h0 : prefL pat ((b :: xs) ++ rest) = false := by
      apply prefL_take_false (b :: xs) pat rest
      simpa using hk 0 (by simp)
    have h1 : containsSub (xs ++ rest) pat = false := by
      apply ih rest ?_ hrest
      intro k hklt
      have := hk (k + 1) (by simp; omega)
      simpa [Nat.succ_sub_succ] using this
    show (prefL pat (b :: (xs ++ rest)) || containsSub (xs ++ rest) pat) = false
    rw [show b :: (xs ++ rest) = (b :: xs) ++ rest from rfl, h0, h1]
    rfl

theorem containsSub_sandwich (pat : List Char) (hne : pat ≠ []) :
    ∀ (x y : List Char), containsSub (x ++ pat ++ y) pat = true := by
  intro x
  induction x with
  | nil =>
    intro y
    obtain ⟨p, pt, rfl⟩ : ∃ p pt, pat = p :: pt := by
      cases pat with
      | nil => exact absurd rfl hne
      | cons p pt => exact ⟨p, pt, rfl⟩
    show containsSub ((p :: pt) ++ y) (p :: pt) = true
    simp only [containsSub, List.cons_append, Bool.or_eq_true]
    exact Or.inl (prefL_append (p :: pt) y)
  | cons a xs ih =>
    intro y
    show (prefL pat (a :: (xs ++ pat ++ y)) || containsSub (xs ++ pat ++ y) pat) = true
    rw [ih y]
    simp

theorem repAux_fuel (pat rep : List Char) : ∀ (n : Nat) (s : List Char) (m : Nat),
    s.length ≤ n → s.length ≤ m → repAux pat rep n s = repAux pat rep m s := by
  intro n
  induction n with
  | zero =>
    intro s m h1 _
    have hs : s = [] := List.eq_nil_of_length_eq_zero (by omega)
    subst hs
    simp [repAux]
  | succ n' ih =>
    intro s m h1 h2
    cases s with
    | nil => simp [repAux]
    | cons c cs =>
      cases m with
      | zero =>
        exact absurd h2 (by simp)
      | succ m' =>
        simp only [repAux]
        by_cases hc : (prefL pat (c :: cs) && !pat.isEmpty) = true
        · simp only [hc, if_true]
          congr 1
          apply ih
          · have := List.length_drop (pat.length - 1) cs
            simp only [List.length_cons] at h1
            omega
          · have := List.length_drop (pat.length - 1) cs
            simp only [List.length_cons] at h2
            omega
        · have hcf : (prefL pat (c :: cs) && !pat.isEmpty) = false := by
            simpa using hc
          simp only [hcf, Bool.false_eq_true, if_false]
          congr 1
          apply ih
          · simp only [List.length_cons] at h1; omega
          · simp only [List.length_cons] at h2; omega

theorem repAux_no_occur (pat rep : List Char) : ∀ (s : List Char) (n : Nat),
    containsSub s pat = false → repAux pat rep n s = s := by
  intro s
  induction s with
  | nil => intro n _; simp [repAux]
  | cons c cs ih =>
    intro n h
    have hp : prefL pat (c :: cs) = false := by
      by_contra hcon
      simp only [containsSub, Bool.or_eq_false_iff] at h
      exact hcon h.1
    have ht : containsSub cs pat = false := by
      simp only [containsSub, Bool.or_eq_false_iff] at h
      exact h.2
    cases n with
    | zero => rfl
    | succ n' =>
      simp only [repAux, hp, Bool.false_and, Bool.false_eq_true, if_false]
      rw [ih n' ht]

theorem replaceL_no_occur (pat rep s : List Char) (h : containsSub s pat = false) :
    replaceL pat rep s = s :=
  repAux_no_occur pat rep s s.length h

theorem replaceL_boundary (h : Char) (pt rep : List Char) : ∀ (x y : List Char), h ∉ x →
    replaceL (h :: pt) rep (x ++ (h :: pt) ++ y) = x ++ rep ++ replaceL (h :: pt) rep y := by
  intro x
  induction x with
  | nil =>
    intro y _
    show repAux (h :: pt) rep ((h :: (pt ++ y)).length) (h :: (pt ++ y)) = _
    simp only [List.length_cons, repAux]
    rw [show prefL (h :: pt) (h :: (pt ++ y)) = true from prefL_append (h :: pt) y]
    simp only [List.isEmpty_cons, Bool.not_false, Bool.and_true, if_true]
    simp only [Nat.add_sub_cancel, List.drop_left]
    rw [repAux_fuel (h :: pt) rep (pt ++ y).length y y.length (by simp) (by omega)]
    rfl
  | cons a xs ih =>
    intro y hmem
    have ha : a ≠ h := fun he => hmem (he ▸ List.mem_cons_self a xs)
    show repAux (h :: pt) rep ((a :: (xs ++ (h :: pt) ++ y)).length) (a :: (xs ++ (h :: pt) ++ y)) = _
    simp only [List.length_cons, repAux]
    rw [prefL_head_ne h a pt _ ha]
    simp only [Bool.false_and, Bool.false_eq_true, if_false]
    rw [show repAux (h :: pt) rep (xs ++ (h :: pt) ++ y).length (xs ++ (h :: pt) ++ y)
          = replaceL (h :: pt) rep (xs ++ (h :: pt) ++ y) from rfl,
      ih y (fun hx => hmem (List.mem_cons_of_mem a hx))]
    rfl

theorem splitAux_ne_nil (pat : List Char) : ∀ (n : Nat) (s : List Char), splitAux pat n s ≠ [] := by
  intro n s
  cases n with
  | zero => cases s <;> simp [splitAux]
  | succ n' =>
    cases s with
    | nil => simp [splitAux]
    | cons c cs =>
      simp only [splitAux]
      by_cases hc : (prefL pat (c :: cs) && !pat.isEmpty) = true
      · simp [hc]
      · have hcf : (prefL pat (c :: cs) && !pat.isEmpty) = false := by simpa using hc
        simp only [hcf, Bool.false_eq_true, if_false]
        cases hsp : splitAux pat n' cs <;> simp

theorem splitAux_fuel (pat : List Char) : ∀ (n : Nat) (s : List Char) (m : Nat),
    s.length ≤ n → s.length ≤ m → splitAux pat n s = splitAux pat m s := by
  intro n
  induction n with
  | zero =>
    intro s m h1 _
    have hs : s = [] := List.eq_nil_of_length_eq_zero (by omega)
    subst hs
    cases m <;> simp [splitAux]
  | succ n' ih =>
    intro s m h1 h2
    cases s with
    | nil => cases m <;> simp [splitAux]
    | cons c cs =>
      cases m with
      | zero => exact absurd h2 (by simp)
      | succ m' =>
        simp only [splitAux]
        by_cases hc : (prefL pat (c :: cs) && !pat.isEmpty) = true
        · simp only [hc, if_true]
          congr 1
          apply ih
          · have := List.length_drop (pat.length - 1) cs
            simp only [List.length_cons] at h1
            omega
          · have := List.length_drop (pat.length - 1) cs
            simp only [List.length_cons] at h2
            omega
        · have hcf : (prefL pat (c :: cs) && !pat.isEmpty) = false := by simpa using hc
          simp only [hcf, Bool.false_eq_true, if_false]
          rw [ih cs m' (by simp only [List.length_cons] at h1; omega)
            (by simp only [List.length_cons] at h2; omega)]

theorem splitAux_no_occur (pat : List Char) : ∀ (s : List Char) (n : Nat),
    containsSub s pat = false → splitAux pat n s = [s] := by
  intro s
  induction s with
  | nil => intro n _; cases n <;> rfl
  | cons c cs ih =>
    intro n h
    simp only [containsSub, Bool.or_eq_false_iff] at h
    cases n with
    | zero => rfl
    | succ n' =>
      simp only [splitAux, h.1, Bool.false_and, Bool.false_eq_true, if_false]
      rw [ih n' h.2]

theorem splitL_boundary (h : Char) (pt : List Char) : ∀ (x y : List Char), h ∉ x →
    splitL (h :: pt) (x ++ (h :: pt) ++ y) = x :: splitL (h :: pt) y := by
  intro x
  induction x with
  | nil =>
    intro y _
    show splitAux (h :: pt) ((h :: (pt ++ y)).length) (h :: (pt ++ y)) = _
    simp only [List.length_cons, splitAux]
    rw [show prefL (h :: pt) (h :: (pt ++ y)) = true from prefL_append (h :: pt) y]
    simp only [List.isEmpty_cons, Bool.not_false, Bool.and_true, if_true]
    simp only [Nat.add_sub_cancel, List.drop_left]
    rw [splitAux_fuel (h :: pt) (pt ++ y).length y y.length (by simp) (by omega)]
    rfl
  | cons a xs ih =>
    intro y hmem
    have ha : a ≠ h := fun he => hmem (he ▸ List.mem_cons_self a xs)
    show splitAux (h :: pt) ((a :: (xs ++ (h :: pt) ++ y)).length) (a :: (xs ++ (h :: pt) ++ y)) = _
    simp only [List.length_cons, splitAux]
    rw [prefL_head_ne h a pt _ ha]
    simp only [Bool.false_and, Bool.false_eq_true, if_false]
    rw [show splitAux (h :: pt) (xs ++ (h :: pt) ++ y).length (xs ++ (h :: pt) ++ y)
          = splitL (h :: pt) (xs ++ (h :: pt) ++ y) from rfl,
      ih y (fun hx => hmem (List.mem_cons_of_mem a hx))]

theorem firstIdxOf_spec (c : Char) : ∀ (l : List Char) (i : Nat), firstIdxOf c l = some i →
    l.get? i = some c ∧ ∀ j, j < i → l.get? j ≠ some c := by
  intro l
  induction l with
  | nil => intro i h; exact absurd h (by simp [firstIdxOf])
  | cons x xs ih =>
    intro i h
    by_cases hx : (x == c) = true
    · have h0 : i = 0 := by
        simp [firstIdxOf, hx] at h
        omega
      subst h0
      refine ⟨by simpa using eq_of_beq hx, fun j hj => absurd hj (by omega)⟩
    · have hxc : x ≠ c := fun he => hx (by simp [he])
      simp only [firstIdxOf, hx, Bool.false_eq_true, if_false] at h
      cases ho : firstIdxOf c xs with
      | none => rw [ho] at h; exact absurd h (by simp)
      | some i' =>
        rw [ho] at h
        simp at h
        have hi : i = i' + 1 := by omega
        subst hi
        refine ⟨(ih i' ho).1, fun j hj => ?_⟩
        cases j with
        | zero => simpa using hxc
        | succ j' => exact (ih i' ho).2 j' (by omega)

theorem lastIdxOf_none (c : Char) : ∀ (l : List Char), lastIdxOf c l = none →
    ∀ j, l.get? j ≠ some c := by
  intro l
  induction l with
  | nil => intro _ j; simp
  | cons x xs ih =>
    intro h j
    cases ho : lastIdxOf c xs with
    | some i => rw [lastIdxOf, ho] at h; exact absurd h (by simp)
    | none =>
      rw [lastIdxOf, ho] at h
      have hx : (x == c) = false := by
        by_cases hb : (x == c) = true
        · rw [hb] at h; exact absurd h (by simp)
        · simpa using hb
      cases j with
      | zero =>
        have : x ≠ c := fun he => by simp [he] at hx
        simpa using this
      | succ j' => exact ih ho j'

theorem lastIdxOf_spec (c : Char) : ∀ (l : List Char) (e : Nat), lastIdxOf c l = some e →
    l.get? e = some c ∧ ∀ j, e < j → l.get? j ≠ some c := by
  intro l
  induction l with
  | nil => intro e h; exact absurd h (by simp [lastIdxOf])
  | cons x xs ih =>
    intro e h
    cases ho : lastIdxOf c xs with
    | some i =>
      rw [lastIdxOf, ho] at h
      have he : e = i + 1 := by
        simpa using h.symm
      subst he
      refine ⟨(ih i ho).1, fun j hj => ?_⟩
      cases j with
      | zero => omega
      | succ j' => exact (ih i ho).2 j' (by omega)
    | none =>
      rw [lastIdxOf, ho] at h
      by_cases hx : (x == c) = true
      · rw [if_pos hx] at h
        have he : e = 0 := by simpa using h.symm
        subst he
        refine ⟨by simpa using eq_of_beq hx, fun j hj => ?_⟩
        cases j with
        | zero => omega
        | succ j' => exact lastIdxOf_none c xs ho j'
      · rw [if_neg hx] at h
        exact absurd h (by simp)

/-- C4: the response parser first looks for a bracket pair (first open
bracket to last close bracket); when the slice exists and the JSON parse
succeeds its elements become the translated lines in order; when no
bracket pair exists, or the JSON parse raises, the parser returns the
split of the raw response on the literal two-character sequence
backslash-n; it is a total function, so a parse failure degrades to the
fallback split and never to a task failure.  The last conjunct pins the
fallback's split semantics on a string containing one escape sequence. -/
theorem response_parser_fallback :
    (∀ (jsonLoads : String → Option (List String)) (response : String),
      (firstIdxOf '[' response.data = none ∨ lastIdxOf ']' response.data = none) →
      parseResponse jsonLoads response = fallbackSplit response)
    ∧ (∀ (jsonLoads : String → Option (List String)) (response js : String),
        extractJson response = some js → jsonLoads js = none →
        parseResponse jsonLoads response = fallbackSplit response)
    ∧ (∀ (jsonLoads : String → Option (List String)) (response js : String) (xs : List String),
        extractJson response = some js → jsonLoads js = some xs →
        parseResponse jsonLoads response = xs)
    ∧ (∀ (response : String) (s e : Nat),
        firstIdxOf '[' response.data = some s → lastIdxOf ']' response.data = some e →
        extractJson response = some ⟨(response.data.drop s).take (e + 1 - s)⟩
        ∧ response.data.get? s = some '[' ∧ (∀ j, j < s → response.data.get? j ≠ some '[')
        ∧ response.data.get? e = some ']' ∧ (∀ j, e < j → response.data.get? j ≠ some ']'))
    ∧ (∀ (x y : String), '\\' ∉ x.data → '\\' ∉ y.data →
        fallbackSplit (x ++ "\\n" ++ y) = [x, y]) := by
  refine ⟨?_, ?_, ?_, ?_, ?_⟩
  · intro jsonLoads response h
    rcases h with h | h
    · simp [parseResponse, extractJson, h]
    · cases hf : firstIdxOf '[' response.data <;> simp [parseResponse, extractJson, h, hf]
  · intro jsonLoads response js h1 h2
    simp [parseResponse, h1, h2]
  · intro jsonLoads response js xs h1 h2
    simp [parseResponse, h1, h2]
  · intro response s e hf he
    refine ⟨by simp [extractJson, hf, he], (firstIdxOf_spec '[' response.data s hf).1,
      (firstIdxOf_spec '[' response.data s hf).2,
      (lastIdxOf_spec ']' response.data e he).1,
      (lastIdxOf_spec ']' response.data e he).2⟩
  · intro x y hx hy
    show (splitL "\\n".data (x ++ "\\n" ++ y).data).map (fun l => (⟨l⟩ : String)) = [x, y]
    have hdata : (x ++ "\\n" ++ y).data = x.data ++ ('\\' :: ['n']) ++ y.data := by
      rw [strData_append, strData_append]
    rw [hdata, show "\\n".data = '\\' :: ['n'] from rfl,
      splitL_boundary '\\' ['n'] x.data y.data hx,
      show splitL ('\\' :: ['n']) y.data = splitAux ('\\' :: ['n']) y.data.length y.data from rfl,
      splitAux_no_occur ('\\' :: ['n']) y.data y.data.length
        (containsSub_head_not_mem '\\' ['n'] y.data hy)]
    simp only [List.map_cons, List.map_nil, strEta]

/-- Witness for C4 at concrete inputs: JSON-success, JSON-failure
fallback, no-bracket fallback, and the escape-sequence split. -/
theorem response_parser_fallback_witness :
    parseResponse (fun s => if s = "[1,2]" then some ["a", "b"] else none) "x[1,2]y" = ["a", "b"]
    ∧ parseResponse (fun _ => none) "x[1,2]y" = ["x[1,2]y"]
    ∧ parseResponse (fun _ => none) "a\\nb" = ["a", "b"]
    ∧ fallbackSplit ("ab" ++ "\\n" ++ "cd") = ["ab", "cd"] := by
  refine ⟨?_, ?_, ?_, ?_⟩
  · rw [response_parser_fallback.2.2.1 (fun s => if s = "[1,2]" then some ["a", "b"] else none)
      "x[1,2]y" "[1,2]" ["a", "b"] (by decide) (by decide)]
  · rw [response_parser_fallback.2.1 (fun _ => none) "x[1,2]y" "[1,2]" (by decide) (by decide)]
    decide
  · rw [response_parser_fallback.1 (fun _ => none) "a\\nb" (Or.inl (by decide))]
    decide
  · rw [response_parser_fallback.2.2.2.2 "ab" "cd" (by decide) (by decide)]

/-! ## Lemmas about prompt formatting -/

theorem strEq (x y : String) (h : x.data = y.data) : x = y := by
  cases x
  cases y
  exact congrArg String.mk h

theorem not_mem_append (c : Char) (x y : List Char) (hx : c ∉ x) (hy : c ∉ y) : c ∉ x ++ y := by
  intro h
  rcases List.mem_append.mp h with h | h
  · exact hx h
  · exact hy h

theorem replace_lang_step (a lang : String) (rest : List Char) (hA : '\x7b' ∉ a.data)
    (hrest : containsSub rest "\x7btarget_lang\x7d".data = false) :
    replaceL "\x7btarget_lang\x7d".data lang.data ((a.data ++ "\x7btarget_lang\x7d".data) ++ rest)
      = (a.data ++ lang.data) ++ rest := by
  rw [show "\x7btarget_lang\x7d".data = '\x7b' :: "target_lang\x7d".data from rfl,
    replaceL_boundary '\x7b' "target_lang\x7d".data lang.data a.data rest hA,
    replaceL_no_occur _ _ _ hrest]

theorem noTL_rest_gl (b c d : List Char) (hB : '\x7b' ∉ b) (hC : '\x7b' ∉ c) (hD : '\x7b' ∉ d) :
    containsSub (b ++ ("\x7bglossary\x7d".data ++ (c ++ ("\x7btext\x7d".data ++ d))))
      "\x7btarget_lang\x7d".data = false := by
  rw [show "\x7btarget_lang\x7d".data = '\x7b' :: "target_lang\x7d".data from rfl,
    containsSub_append_skip '\x7b' "target_lang\x7d".data b _ hB]
  apply containsSub_chunk_false ('\x7b' :: "target_lang\x7d".data) "\x7bglossary\x7d".data _ (by decide)
  rw [containsSub_append_skip '\x7b' "target_lang\x7d".data c _ hC]
  apply containsSub_chunk_false ('\x7b' :: "target_lang\x7d".data) "\x7btext\x7d".data _ (by decide)
  exact containsSub_head_not_mem '\x7b' "target_lang\x7d".data d hD

theorem noTL_rest_tx (b c : List Char) (hB : '\x7b' ∉ b) (hC : '\x7b' ∉ c) :
    containsSub (b ++ ("\x7btext\x7d".data ++ c)) "\x7btarget_lang\x7d".data = false := by
  rw [show "\x7btarget_lang\x7d".data = '\x7b' :: "target_lang\x7d".data from rfl,
    containsSub_append_skip '\x7b' "target_lang\x7d".data b _ hB]
  apply containsSub_chunk_false ('\x7b' :: "target_lang\x7d".data) "\x7btext\x7d".data _ (by decide)
  exact containsSub_head_not_mem '\x7b' "target_lang\x7d".data c hC

theorem noGL_rest_tx (c d : List Char) (hC : '\x7b' ∉ c) (hD : '\x7b' ∉ d) :
    containsSub (c ++ ("\x7btext\x7d".data ++ d)) "\x7bglossary\x7d".data = false := by
  rw [show "\x7bglossary\x7d".data = '\x7b' :: "glossary\x7d".data from rfl,
    containsSub_append_skip '\x7b' "glossary\x7d".data c _ hC]
  apply containsSub_chunk_false ('\x7b' :: "glossary\x7d".data) "\x7btext\x7d".data _ (by decide)
  exact containsSub_head_not_mem '\x7b' "glossary\x7d".data d hD

theorem buildPrompt_glossary_branch (a b c d lang gtext : String) (srcs : List String)
    (hA : '\x7b' ∉ a.data) (hB : '\x7b' ∉ b.data) (hC : '\x7b' ∉ c.data) (hD : '\x7b' ∉ d.data)
    (hL : '\x7b' ∉ lang.data) :
    buildPrompt (a ++ "\x7btarget_lang\x7d" ++ b ++ "\x7bglossary\x7d" ++ c ++ "\x7btext\x7d" ++ d) lang gtext srcs
      = a ++ lang ++ b ++ gtext ++ c ++ "\x7btext\x7d" ++ d := by
  have hTdata : (a ++ "\x7btarget_lang\x7d" ++ b ++ "\x7bglossary\x7d" ++ c ++ "\x7btext\x7d" ++ d).data
      = (a.data ++ "\x7btarget_lang\x7d".data)
          ++ (b.data ++ ("\x7bglossary\x7d".data ++ (c.data ++ ("\x7btext\x7d".data ++ d.data)))) := by
    simp [strData_append, List.append_assoc]
  have hstep1 : replaceStr (a ++ "\x7btarget_lang\x7d" ++ b ++ "\x7bglossary\x7d" ++ c ++ "\x7btext\x7d" ++ d)
        "\x7btarget_lang\x7d" lang
      = (⟨(a.data ++ lang.data)
          ++ (b.data ++ ("\x7bglossary\x7d".data ++ (c.data ++ ("\x7btext\x7d".data ++ d.data))))⟩ : String) := by
    show (⟨replaceL "\x7btarget_lang\x7d".data lang.data
        ((a ++ "\x7btarget_lang\x7d" ++ b ++ "\x7bglossary\x7d" ++ c ++ "\x7btext\x7d" ++ d)).data⟩ : String) = _
    rw [hTdata, replace_lang_step a lang _ hA (noTL_rest_gl b.data c.data d.data hB hC hD)]
  have hcond : containsStr (⟨(a.data ++ lang.data)
        ++ (b.data ++ ("\x7bglossary\x7d".data ++ (c.data ++ ("\x7btext\x7d".data ++ d.data))))⟩ : String)
        "\x7bglossary\x7d" = true := by
    show containsSub ((a.data ++ lang.data)
        ++ (b.data ++ ("\x7bglossary\x7d".data ++ (c.data ++ ("\x7btext\x7d".data ++ d.data)))))
        "\x7bglossary\x7d".data = true
    have hre : (a.data ++ lang.data)
          ++ (b.data ++ ("\x7bglossary\x7d".data ++ (c.data ++ ("\x7btext\x7d".data ++ d.data))))
        = ((a.data ++ lang.data ++ b.data) ++ "\x7bglossary\x7d".data)
            ++ (c.data ++ ("\x7btext\x7d".data ++ d.data)) := by
      simp [List.append_assoc]
    rw [hre]
    exact containsSub_sandwich "\x7bglossary\x7d".data (by decide) _ _
  have hstep3 : replaceStr (⟨(a.data ++ lang.data)
        ++ (b.data ++ ("\x7bglossary\x7d".data ++ (c.data ++ ("\x7btext\x7d".data ++ d.data))))⟩ : String)
        "\x7bglossary\x7d" gtext
      = (⟨((a.data ++ (lang.data ++ b.data)) ++ gtext.data)
          ++ (c.data ++ ("\x7btext\x7d".data ++ d.data))⟩ : String) := by
    show (⟨replaceL "\x7bglossary\x7d".data gtext.data
        ((a.data ++ lang.data)
          ++ (b.data ++ ("\x7bglossary\x7d".data ++ (c.data ++ ("\x7btext\x7d".data ++ d.data)))))⟩ : String) = _
    have hre : (a.data ++ lang.data)
          ++ (b.data ++ ("\x7bglossary\x7d".data ++ (c.data ++ ("\x7btext\x7d".data ++ d.data))))
        = ((a.data ++ (lang.data ++ b.data)) ++ "\x7bglossary\x7d".data)
            ++ (c.data ++ ("\x7btext\x7d".data ++ d.data)) := by
      simp [List.append_assoc]
    rw [hre, show "\x7bglossary\x7d".data = '\x7b' :: "glossary\x7d".data from rfl,
      replaceL_boundary '\x7b' "glossary\x7d".data gtext.data _ _
        (not_mem_append _ _ _ hA (not_mem_append _ _ _ hL hB)),
      replaceL_no_occur _ _ _ (noGL_rest_tx c.data d.data hC hD)]
  show (if containsStr (replaceStr (a ++ "\x7btarget_lang\x7d" ++ b ++ "\x7bglossary\x7d" ++ c ++ "\x7btext\x7d" ++ d)
            "\x7btarget_lang\x7d" lang) "\x7bglossary\x7d" = true
        then replaceStr (replaceStr (a ++ "\x7btarget_lang\x7d" ++ b ++ "\x7bglossary\x7d" ++ c ++ "\x7btext\x7d" ++ d)
            "\x7btarget_lang\x7d" lang) "\x7bglossary\x7d" gtext
        else replaceStr (replaceStr (a ++ "\x7btarget_lang\x7d" ++ b ++ "\x7bglossary\x7d" ++ c ++ "\x7btext\x7d" ++ d)
            "\x7btarget_lang\x7d" lang) "\x7btext\x7d"
            (gtext ++ "\nInput:\n" ++ String.intercalate "\n" srcs))
      = a ++ lang ++ b ++ gtext ++ c ++ "\x7btext\x7d" ++ d
  rw [hstep1, hcond, if_pos rfl, hstep3]
  apply strEq
  simp [strData_append, List.append_assoc]

theorem buildPrompt_text_branch (a b c lang gtext : String) (srcs : List String)
    (hA : '\x7b' ∉ a.data) (hB : '\x7b' ∉ b.data) (hC : '\x7b' ∉ c.data)
    (hL : '\x7b' ∉ lang.data) :
    buildPrompt (a ++ "\x7btarget_lang\x7d" ++ b ++ "\x7btext\x7d" ++ c) lang gtext srcs
      = a ++ lang ++ b ++ (gtext ++ "\nInput:\n" ++ String.intercalate "\n" srcs) ++ c := by
  have hTdata : (a ++ "\x7btarget_lang\x7d" ++ b ++ "\x7btext\x7d" ++ c).data
      = (a.data ++ "\x7btarget_lang\x7d".data) ++ (b.data ++ ("\x7btext\x7d".data ++ c.data)) := by
    simp [strData_append, List.append_assoc]
  have hstep1 : replaceStr (a ++ "\x7btarget_lang\x7d" ++ b ++ "\x7btext\x7d" ++ c)
        "\x7btarget_lang\x7d" lang
      = (⟨(a.data ++ lang.data) ++ (b.data ++ ("\x7btext\x7d".data ++ c.data))⟩ : String) := by
    show (⟨replaceL "\x7btarget_lang\x7d".data lang.data
        ((a ++ "\x7btarget_lang\x7d" ++ b ++ "\x7btext\x7d" ++ c)).data⟩ : String) = _
    rw [hTdata, replace_lang_step a lang _ hA (noTL_rest_tx b.data c.data hB hC)]
  have hcond : containsStr (⟨(a.data ++ lang.data)
        ++ (b.data ++ ("\x7btext\x7d".data ++ c.data))⟩ : String) "\x7bglossary\x7d" = false := by
    show containsSub ((a.data ++ lang.data) ++ (b.data ++ ("\x7btext\x7d".data ++ c.data)))
        "\x7bglossary\x7d".data = false
    have hre : (a.data ++ lang.data) ++ (b.data ++ ("\x7btext\x7d".data ++ c.data))
        = a.data ++ (lang.data ++ (b.data ++ ("\x7btext\x7d".data ++ c.data))) := by
      simp [List.append_assoc]
    rw [hre, show "\x7bglossary\x7d".data = '\x7b' :: "glossary\x7d".data from rfl,
      containsSub_append_skip '\x7b' "glossary\x7d".data a.data _ hA,
      containsSub_append_skip '\x7b' "glossary\x7d".data lang.data _ hL]
    exact noGL_rest_tx b.data c.data hB hC
  have hstep3 : replaceStr (⟨(a.data ++ lang.data)
        ++ (b.data ++ ("\x7btext\x7d".data ++ c.data))⟩ : String) "\x7btext\x7d"
        (gtext ++ "\nInput:\n" ++ String.intercalate "\n" srcs)
      = (⟨((a.data ++ (lang.data ++ b.data))
            ++ (gtext ++ "\nInput:\n" ++ String.intercalate "\n" srcs).data) ++ c.data⟩ : String) := by
    show (⟨replaceL "\x7btext\x7d".data (gtext ++ "\nInput:\n" ++ String.intercalate "\n" srcs).data
        ((a.data ++ lang.data) ++ (b.data ++ ("\x7btext\x7d".data ++ c.data)))⟩ : String) = _
    have hre : (a.data ++ lang.data) ++ (b.data ++ ("\x7btext\x7d".data ++ c.data))
        = ((a.data ++ (lang.data ++ b.data)) ++ "\x7btext\x7d".data) ++ c.data := by
      simp [List.append_assoc]
    rw [hre, show "\x7btext\x7d".data = '\x7b' :: "text\x7d".data from rfl,
      replaceL_boundary '\x7b' "text\x7d".data _ _ _
        (not_mem_append _ _ _ hA (not_mem_append _ _ _ hL hB)),
      replaceL_no_occur _ _ _ (containsSub_head_not_mem '\x7b' "text\x7d".data c.data hC)]
  show (if containsStr (replaceStr (a ++ "\x7btarget_lang\x7d" ++ b ++ "\x7btext\x7d" ++ c)
            "\x7btarget_lang\x7d" lang) "\x7bglossary\x7d" = true
        then replaceStr (replaceStr (a ++ "\x7btarget_lang\x7d" ++ b ++ "\x7btext\x7d" ++ c)
            "\x7btarget_lang\x7d" lang) "\x7bglossary\x7d" gtext
        else replaceStr (replaceStr (a ++ "\x7btarget_lang\x7d" ++ b ++ "\x7btext\x7d" ++ c)
            "\x7btarget_lang\x7d" lang) "\x7btext\x7d"
            (gtext ++ "\nInput:\n" ++ String.intercalate "\n" srcs))
      = a ++ lang ++ b ++ (gtext ++ "\nInput:\n" ++ String.intercalate "\n" srcs) ++ c
  rw [hstep1, hcond]
  simp only [Bool.false_eq_true, if_false]
  rw [hstep3]
  apply strEq
  simp [strData_append, List.append_assoc]

/-- C7 counterexample: the claim says the source-text placeholder is
replaced by the newline-joined source lines in every built prompt.  With
a glossary placeholder present, the code replaces only the glossary
placeholder and leaves the text placeholder verbatim, never inserting the
source lines; and without a glossary placeholder the text placeholder is
replaced by the glossary text, a literal `Input:` marker and the joined
lines, not by the joined lines alone. -/
theorem prompt_text_counterexample :
    buildPrompt "A \x7btarget_lang\x7d \x7bglossary\x7d B \x7btext\x7d" "en" "G" ["s1", "s2"]
      = "A en G B \x7btext\x7d"
    ∧ containsStr (buildPrompt "A \x7btarget_lang\x7d \x7bglossary\x7d B \x7btext\x7d" "en" "G" ["s1", "s2"])
        "\x7btext\x7d" = true
    ∧ containsStr (buildPrompt "A \x7btarget_lang\x7d \x7bglossary\x7d B \x7btext\x7d" "en" "G" ["s1", "s2"])
        "s1" = false
    ∧ ¬ buildPrompt "A \x7btarget_lang\x7d \x7bglossary\x7d B \x7btext\x7d" "en" "G" ["s1", "s2"]
        = "A en G B s1\ns2"
    ∧ buildPrompt "X \x7btarget_lang\x7d \x7btext\x7d" "en" "" ["s1", "s2"] = "X en \nInput:\ns1\ns2"
    ∧ ¬ buildPrompt "X \x7btarget_lang\x7d \x7btext\x7d" "en" "" ["s1", "s2"] = "X en s1\ns2" := by
  decide

/-- C7 amended: the language placeholder is substituted first; when the
resulting template contains the glossary placeholder, the glossary text
is substituted there and the source-text placeholder is left verbatim
(source lines are not inserted); otherwise the source-text placeholder is
replaced by the glossary text, a literal newline-`Input:`-newline marker,
and the source lines joined by newlines, in row order.  Stated for
templates whose fixed parts contain no placeholder-opening brace. -/
theorem prompt_substitution_amended :
    (∀ (a b c d lang gtext : String) (srcs : List String),
      '\x7b' ∉ a.data → '\x7b' ∉ b.data → '\x7b' ∉ c.data → '\x7b' ∉ d.data → '\x7b' ∉ lang.data →
      buildPrompt (a ++ "\x7btarget_lang\x7d" ++ b ++ "\x7bglossary\x7d" ++ c ++ "\x7btext\x7d" ++ d) lang gtext srcs
        = a ++ lang ++ b ++ gtext ++ c ++ "\x7btext\x7d" ++ d)
    ∧ (∀ (a b c lang gtext : String) (srcs : List String),
      '\x7b' ∉ a.data → '\x7b' ∉ b.data → '\x7b' ∉ c.data → '\x7b' ∉ lang.data →
      buildPrompt (a ++ "\x7btarget_lang\x7d" ++ b ++ "\x7btext\x7d" ++ c) lang gtext srcs
        = a ++ lang ++ b ++ (gtext ++ "\nInput:\n" ++ String.intercalate "\n" srcs) ++ c) :=
  ⟨fun a b c d lang gtext srcs hA hB hC hD hL =>
      buildPrompt_glossary_branch a b c d lang gtext srcs hA hB hC hD hL,
   fun a b c lang gtext srcs hA hB hC hL =>
      buildPrompt_text_branch a b c lang gtext srcs hA hB hC hL⟩

/-- Witness for the amended C7 theorem at concrete template parts. -/
theorem prompt_substitution_amended_witness :
    buildPrompt ("P " ++ "\x7btarget_lang\x7d" ++ " Q " ++ "\x7bglossary\x7d" ++ " R " ++ "\x7btext\x7d" ++ " S")
        "en" "G" ["s1", "s2"]
      = "P " ++ "en" ++ " Q " ++ "G" ++ " R " ++ "\x7btext\x7d" ++ " S"
    ∧ buildPrompt ("P " ++ "\x7btarget_lang\x7d" ++ " Q " ++ "\x7btext\x7d" ++ " R") "en" "G" ["s1", "s2"]
      = "P " ++ "en" ++ " Q " ++ ("G" ++ "\nInput:\n" ++ String.intercalate "\n" ["s1", "s2"]) ++ " R" :=
  ⟨prompt_substitution_amended.1 "P " " Q " " R " " S" "en" "G" ["s1", "s2"]
      (by decide) (by decide) (by decide) (by decide) (by decide),
   prompt_substitution_amended.2 "P " " Q " " R" "en" "G" ["s1", "s2"]
      (by decide) (by decide) (by decide) (by decide)⟩

/-! ## Lemmas about the glossary text -/

theorem terms_split : ∀ (g : List (String × String)) (tail : List Char),
    (∀ p ∈ g, '\n' ∉ p.1.data ∧ '\n' ∉ p.2.data) →
    splitL ('\n' :: []) ((termLinesText g).data ++ tail)
      = g.map (fun p => ("- " ++ p.1 ++ " -> " ++ p.2).data) ++ splitL ('\n' :: []) tail := by
  intro g
  induction g with
  | nil => intro tail _; rfl
  | cons p gs ih =>
    obtain ⟨t, tr⟩ := p
    intro tail hg
    have h1 := hg (t, tr) (List.mem_cons_self _ _)
    have hline : '\n' ∉ ("- " ++ t ++ " -> " ++ tr).data := by
      rw [strData_append, strData_append, strData_append]
      exact not_mem_append _ _ _
        (not_mem_append _ _ _ (not_mem_append _ _ _ (by decide) h1.1) (by decide)) h1.2
    have hre : (termLinesText ((t, tr) :: gs)).data ++ tail
        = (("- " ++ t ++ " -> " ++ tr).data ++ ('\n' :: []))
            ++ ((termLinesText gs).data ++ tail) := by
      have hnl : "\n".data = '\n' :: ([] : List Char) := rfl
      simp [termLinesText, strData_append, List.append_assoc, hnl]
    rw [hre, splitL_boundary '\n' [] _ _ hline,
      ih tail (fun q hq => hg q (List.mem_cons_of_mem _ hq))]
    rfl

/-- C8 counterexample: a glossary term line injected into the prompt is
`- t -> x`, not the claimed exact shape `t -> x`, and the glossary text
also starts with a blank line and a mandatory-terminology header line
before the term lines. -/
theorem glossary_line_counterexample :
    ¬ (("t -> x" : String) ∈ splitStr (glossaryText "en" (some [("t", "x")])) "\n")
    ∧ ("- t -> x" : String) ∈ splitStr (glossaryText "en" (some [("t", "x")])) "\n"
    ∧ splitStr (glossaryText "en" (some [("t", "x")])) "\n"
        = ["", "GLOSSARY / TERMINOLOGY (Mandatory):", "- t -> x",
           "Please use these exact en translations for the terms listed above.", ""] := by
  decide

/-- C8 amended: the glossary text consists of a blank line, the header
line `GLOSSARY / TERMINOLOGY (Mandatory):`, one line per term of the
exact shape `- <term> -> <translation>` in the glossary's own order, and
the instruction line asking for these exact translations, ending with a
final newline (hence a trailing empty line).  Stated for terms,
translations and language codes that contain no newline. -/
theorem glossary_text_amended (lang : String) (g : List (String × String))
    (hg : ∀ p ∈ g, '\n' ∉ p.1.data ∧ '\n' ∉ p.2.data) (hl : '\n' ∉ lang.data) :
    splitStr (glossaryText lang (some g)) "\n"
      = ["", "GLOSSARY / TERMINOLOGY (Mandatory):"]
        ++ g.map (fun p => "- " ++ p.1 ++ " -> " ++ p.2)
        ++ ["Please use these exact " ++ lang ++ " translations for the terms listed above.", ""] := by
  have hinstr : '\n' ∉ ("Please use these exact " ++ lang
      ++ " translations for the terms listed above.").data := by
    rw [strData_append, strData_append]
    exact not_mem_append _ _ _ (not_mem_append _ _ _ (by decide) hl) (by decide)
  have hdata : (glossaryText lang (some g)).data
      = (([] : List Char) ++ ('\n' :: []))
          ++ (("GLOSSARY / TERMINOLOGY (Mandatory):".data ++ ('\n' :: []))
              ++ ((termLinesText g).data
                  ++ ((("Please use these exact " ++ lang
                        ++ " translations for the terms listed above.").data
                        ++ ('\n' :: [])) ++ ([] : List Char)))) := by
    have hhdr : "\nGLOSSARY / TERMINOLOGY (Mandatory):\n".data
        = '\n' :: ("GLOSSARY / TERMINOLOGY (Mandatory):".data ++ ('\n' :: [])) := rfl
    have htail : " translations for the terms listed above.\n".data
        = " translations for the terms listed above.".data ++ ('\n' :: []) := rfl
    simp [glossaryText, strData_append, List.append_assoc, hhdr, htail]
  show (splitL "\n".data (glossaryText lang (some g)).data).map (fun l => (⟨l⟩ : String)) = _
  rw [show "\n".data = '\n' :: ([] : List Char) from rfl, hdata,
    splitL_boundary '\n' [] ([] : List Char) _ (by simp),
    splitL_boundary '\n' [] ("GLOSSARY / TERMINOLOGY (Mandatory):".data) _ (by decide),
    terms_split g _ hg,
    splitL_boundary '\n' [] _ ([] : List Char) hinstr,
    show splitL ('\n' :: ([] : List Char)) ([] : List Char) = [([] : List Char)] from rfl]
  rw [List.map_cons, List.map_cons, List.map_append, List.map_cons, List.map_cons, List.map_nil,
    List.map_map]
  have hfun : ((fun l => (⟨l⟩ : String)) ∘ fun p : String × String => ("- " ++ p.1 ++ " -> " ++ p.2).data)
      = fun p : String × String => "- " ++ p.1 ++ " -> " ++ p.2 := by
    funext p
    exact strEta _
  rw [hfun, strEta, strEta]
  rfl

/-- Witness for the amended C8 theorem at a concrete two-term glossary. -/
theorem glossary_text_amended_witness :
    splitStr (glossaryText "en" (some [("t", "x"), ("u", "y")])) "\n"
      = ["", "GLOSSARY / TERMINOLOGY (Mandatory):", "- t -> x", "- u -> y",
         "Please use these exact en translations for the terms listed above.", ""] := by
  rw [glossary_text_amended "en" [("t", "x"), ("u", "y")] (by decide) (by decide)]
  decide

/-! ## Lemmas about target discovery -/

theorem dictLookup_insert_self (k : String) (v : Nat) : ∀ (l : List (String × Nat)),
    dictLookup k (dictInsert k v l) = some v := by
  intro l
  induction l with
  | nil => simp [dictInsert, dictLookup]
  | cons p rest ih =>
    obtain ⟨a, b⟩ := p
    by_cases h : (a == k) = true
    · simp [dictInsert, dictLookup, h]
    · simp [dictInsert, dictLookup, h, ih]

theorem dictLookup_insert_ne (k kq : String) (v : Nat) (hne : kq ≠ k) : ∀ (l : List (String × Nat)),
    dictLookup kq (dictInsert k v l) = dictLookup kq l := by
  have hkk : (k == kq) = false := beq_eq_false_iff_ne.mpr (Ne.symm hne)
  intro l
  induction l with
  | nil => simp [dictInsert, dictLookup, hkk]
  | cons p rest ih =>
    obtain ⟨a, b⟩ := p
    by_cases h : (a == k) = true
    · have ha : a = k := eq_of_beq h
      subst ha
      simp [dictInsert, dictLookup, hkk]
    · simp [dictInsert, dictLookup, h, ih]

theorem keys_insert (k : String) (v : Nat) : ∀ (l : List (String × Nat)),
    (dictInsert k v l).map Prod.fst
      = if k ∈ l.map Prod.fst then l.map Prod.fst else l.map Prod.fst ++ [k] := by
  intro l
  induction l with
  | nil => simp [dictInsert]
  | cons p rest ih =>
    obtain ⟨a, b⟩ := p
    by_cases h : (a == k) = true
    · have ha : a = k := eq_of_beq h
      subst ha
      simp [dictInsert]
    · have ha : k ≠ a := fun he => h (by simp [he])
      have hi : dictInsert k v ((a, b) :: rest) = (a, b) :: dictInsert k v rest := by
        simp [dictInsert, h]
      rw [hi]
      simp only [List.map_cons, ih]
      by_cases hm : k ∈ rest.map Prod.fst
      · simp [hm, List.mem_cons, ha]
      · simp [hm, List.mem_cons, ha]

theorem dedupKeep_congr : ∀ (l s1 s2 : List String),
    (∀ c, c ∈ s1 ↔ c ∈ s2) → dedupKeep s1 l = dedupKeep s2 l := by
  intro l
  induction l with
  | nil => intro _ _ _; rfl
  | cons c cs ih =>
    intro s1 s2 h
    simp only [dedupKeep]
    by_cases hm : c ∈ s1
    · simp only [hm, if_true, (h c).mp hm, ih s1 s2 h]
    · have hm2 : c ∉ s2 := fun hx => hm ((h c).mpr hx)
      simp only [hm, hm2, if_false]
      rw [ih (c :: s1) (c :: s2) (fun x => by simp [List.mem_cons, h x])]

theorem buildTargets_lookup (filt : List String) (code : String) :
    ∀ (cells : List String) (i : Nat) (acc : List (String × Nat)),
      dictLookup code (buildTargets filt i cells acc)
        = match lastQual filt code i cells with
          | some j => some j
          | none => dictLookup code acc := by
  intro cells
  induction cells with
  | nil => intro i acc; rfl
  | cons cell rest ih =>
    intro i acc
    show dictLookup code (buildTargets filt (i+1) rest
        (if keepCode filt (trimStr cell) then dictInsert (trimStr cell) i acc else acc)) = _
    rw [ih (i+1)]
    cases hq : lastQual filt code (i+1) rest with
    | some j => simp [lastQual, hq]
    | none =>
      simp only [lastQual, hq]
      by_cases hk : keepCode filt (trimStr cell) = true
      · by_cases ht : (trimStr cell == code) = true
        · have he : trimStr cell = code := eq_of_beq ht
          have hk2 : keepCode filt code = true := by rw [← he]; exact hk
          rw [if_pos hk, he, dictLookup_insert_self]
          simp [hk2]
        · have hne : code ≠ trimStr cell := fun heq => by
            rw [heq] at ht
            exact ht (by simp)
          rw [if_pos hk, dictLookup_insert_ne (trimStr cell) code i hne]
          have htf : (trimStr cell == code) = false := by simpa using ht
          simp [htf]
      · have hkf : keepCode filt (trimStr cell) = false := by simpa using hk
        rw [if_neg hk]
        simp [hkf]

theorem lastQual_spec (filt : List String) (code : String) :
    ∀ (cells : List String) (i : Nat),
      lastQual filt code i cells
        = if keepCode filt code then
            ((List.range' i cells.length).filter
              (fun j => trimStr (cells.getD (j - i) "") == code)).getLast?
          else none := by
  intro cells
  induction cells with
  | nil =>
    intro i
    by_cases hk : keepCode filt code = true <;> simp [lastQual, hk]
  | cons cell rest ih =>
    intro i
    have hrange : List.range' i (rest.length + 1) = i :: List.range' (i+1) rest.length := rfl
    have hfilter :
        (List.range' (i+1) rest.length).filter
            (fun j => trimStr ((cell :: rest).getD (j - i) "") == code)
          = (List.range' (i+1) rest.length).filter
              (fun j => trimStr (rest.getD (j - (i+1)) "") == code) := by
      apply List.filter_congr
      intro j hj
      have h1 : i + 1 ≤ j := (List.mem_range'_1.mp hj).1
      have h2 : j - i = (j - (i + 1)) + 1 := by omega
      rw [h2]
      rfl
    by_cases hk : keepCode filt code = true
    · simp only [lastQual, ih (i+1), hk, if_true, List.length_cons, hrange, List.filter_cons,
        Nat.sub_self, List.getD_cons_zero]
      rw [hfilter]
      by_cases ht : (trimStr cell == code) = true
      · have hkt : keepCode filt (trimStr cell) = true := by rw [eq_of_beq ht]; exact hk
        rw [if_pos ht, List.getLast?_cons]
        have hcond : (keepCode filt (trimStr cell) && (trimStr cell == code)) = true := by
          rw [hkt, ht]
          rfl
        rw [hcond]
        cases hgl : ((List.range' (i+1) rest.length).filter
            (fun j => trimStr (rest.getD (j - (i+1)) "") == code)).getLast? with
        | some j => simp [hgl]
        | none => simp [hgl]
      · have htf : (trimStr cell == code) = false := by simpa using ht
        rw [if_neg ht]
        have hcond : (keepCode filt (trimStr cell) && (trimStr cell == code)) = false := by
          rw [htf]
          simp
        rw [hcond]
        cases hgl : ((List.range' (i+1) rest.length).filter
            (fun j => trimStr (rest.getD (j - (i+1)) "") == code)).getLast? with
        | some j => simp [hgl]
        | none => simp [hgl]
    · have hkf : keepCode filt code = false := by simpa using hk
      simp only [lastQual, ih (i+1), hkf, Bool.false_eq_true, if_false]
      by_cases ht : (trimStr cell == code) = true
      · have : keepCode filt (trimStr cell) = false := by rw [eq_of_beq ht]; exact hkf
        simp [this]
      · have htf : (trimStr cell == code) = false := by simpa using ht
        simp [htf]

theorem buildTargets_keys (filt : List String) :
    ∀ (cells : List String) (i : Nat) (acc : List (String × Nat)),
      (buildTargets filt i cells acc).map Prod.fst
        = acc.map Prod.fst
            ++ dedupKeep (acc.map Prod.fst) ((cells.map trimStr).filter (keepCode filt)) := by
  intro cells
  induction cells with
  | nil => intro i acc; simp [buildTargets, dedupKeep]
  | cons cell rest ih =>
    intro i acc
    show (buildTargets filt (i+1) rest
        (if keepCode filt (trimStr cell) then dictInsert (trimStr cell) i acc else acc)).map Prod.fst = _
    by_cases hk : keepCode filt (trimStr cell) = true
    · rw [if_pos hk, ih (i+1)]
      rw [show ((cell :: rest).map trimStr).filter (keepCode filt)
            = trimStr cell :: ((rest.map trimStr).filter (keepCode filt)) from by
          simp [List.filter_cons, hk]]
      simp only [dedupKeep]
      rw [keys_insert]
      by_cases hm : trimStr cell ∈ acc.map Prod.fst
      · rw [if_pos hm, if_pos hm]
      · rw [if_neg hm, if_neg hm]
        rw [dedupKeep_congr ((rest.map trimStr).filter (keepCode filt))
          (acc.map Prod.fst ++ [trimStr cell]) (trimStr cell :: acc.map Prod.fst)
          (fun c => by simp [List.mem_append, List.mem_cons, or_comm])]
        simp [List.append_assoc]
    · rw [if_neg hk, ih (i+1)]
      rw [show ((cell :: rest).map trimStr).filter (keepCode filt)
            = (rest.map trimStr).filter (keepCode filt) from by
          simp [List.filter_cons, hk]]

theorem getD_drop_str (l : List String) (n j : Nat) (h : n ≤ j) :
    (l.drop n).getD (j - n) "" = l.getD j "" := by
  have h2 : n + (j - n) = j := by omega
  simp only [List.getD_eq_getD_get?, List.get?_eq_getElem?, List.getElem?_drop, h2]

/-- C5: the derived target mapping resolves each code to the LAST
qualifying header position strictly after the source column (so for
duplicate trimmed codes the later position's column index wins), contains
exactly the non-empty trimmed cells after the source column that pass any
supplied filter, with key order the first-occurrence header order; a
header without the source marker yields an empty mapping and contributes
no tasks to the workload. -/
theorem target_mapping_spec (header : List String) (filt : List String) :
    (idxOfStr "ru" header = none → scanTargets header filt = [])
    ∧ (∀ (tbl : List (List String)) (files : List (List (List String))),
        tbl.head? = some header → idxOfStr "ru" header = none →
        scanWorkload filt (tbl :: files) = scanWorkload filt files)
    ∧ ∀ ru, idxOfStr "ru" header = some ru →
        (∀ code, dictLookup code (scanTargets header filt) = lastPosSpec header filt ru code)
        ∧ (scanTargets header filt).map Prod.fst
            = dedupKeep [] (((header.drop (ru + 1)).map trimStr).filter (keepCode filt)) := by
  refine ⟨?_, ?_, ?_⟩
  · intro h
    simp [scanTargets, h]
  · intro tbl files hh hr
    rcases hsw : scanWorkload filt files with ⟨n, meta⟩
    simp [scanWorkload, hh, hsw, scanTargets, hr]
  · intro ru hru
    have hsc : scanTargets header filt = buildTargets filt (ru+1) (header.drop (ru+1)) [] := by
      simp [scanTargets, hru]
    constructor
    · intro code
      rw [hsc, buildTargets_lookup, lastQual_spec]
      by_cases hk : keepCode filt code = true
      · simp only [hk, if_true, lastPosSpec]
        have hlen : (header.drop (ru+1)).length = header.length - (ru+1) := by simp
        rw [hlen]
        have hfc : (List.range' (ru+1) (header.length - (ru+1))).filter
              (fun j => trimStr ((header.drop (ru+1)).getD (j - (ru+1)) "") == code)
            = (List.range' (ru+1) (header.length - (ru+1))).filter
              (fun i => trimStr (header.getD i "") == code) := by
          apply List.filter_congr
          intro j hj
          rw [getD_drop_str header (ru+1) j (List.mem_range'_1.mp hj).1]
        rw [hfc]
        cases hgl : ((List.range' (ru+1) (header.length - (ru+1))).filter
            (fun i => trimStr (header.getD i "") == code)).getLast? with
        | some j => simp [hgl]
        | none => simp [hgl, dictLookup]
      · have hkf : keepCode filt code = false := by simpa using hk
        simp [hkf, lastPosSpec, dictLookup]
    · rw [hsc, buildTargets_keys]
      simp

/-- Witness for C5 at a concrete header with a duplicate code: the later
column wins, and key order follows the header. -/
theorem target_mapping_spec_witness :
    dictLookup "en" (scanTargets ["ru", "en", "jp", "en"] [])
      = lastPosSpec ["ru", "en", "jp", "en"] [] 0 "en"
    ∧ (scanTargets ["ru", "en", "jp", "en"] []).map Prod.fst
      = dedupKeep [] ((((["ru", "en", "jp", "en"] : List String).drop 1).map trimStr).filter (keepCode []))
    ∧ dictLookup "en" (scanTargets ["ru", "en", "jp", "en"] []) = some 3
    ∧ (scanTargets ["ru", "en", "jp", "en"] []).map Prod.fst = ["en", "jp"] := by
  have h := (target_mapping_spec ["ru", "en", "jp", "en"] []).2.2 0 (by decide)
  exact ⟨h.1 "en", h.2, by decide, by decide⟩

end TranslateScenarios
